import Mathlib

/-!
Verification of the dependency-aware package selection and visualization core
of the ROS2 workspace manager GUI (`src/workspace_manager/gui/main_window.py`).

The Python code keeps two dictionaries built by `refresh_packages`:
`package_dependencies` (forward edges, restricted to workspace packages) and
`reverse_dependencies` (reverse edges).  Selection state lives in the
checkbox widgets, modelled here as the list of checked package names.
Python dictionaries are modelled as association lists over `String`;
Python sets are modelled as lists whose membership is what matters.
-/

namespace WorkspaceManager

/-- Association-list lookup with the `dict.get(key, set())` default used by
the Python code: a missing key yields the empty dependency set. -/
def alookup (p : String) : List (String × List String) → List String
  | [] => []
  | e :: es => if e.1 = p then e.2 else alookup p es

/-- The dependency graph as built by `refresh_packages`: a forward adjacency
dictionary (`package_dependencies`) and a reverse one (`reverse_dependencies`). -/
structure DepGraph where
  fwdA : List (String × List String)
  revA : List (String × List String)
deriving DecidableEq

/-- The set of known packages: the key set of `package_dependencies`
(which is also the key set of `package_checkboxes`). -/
def DepGraph.keys (g : DepGraph) : List String := g.fwdA.map Prod.fst

/-- Model of `self.package_dependencies.get(p, set())`. -/
def DepGraph.fwd (g : DepGraph) (p : String) : List String := alookup p g.fwdA

/-- Model of `self.reverse_dependencies.get(p, set())`. -/
def DepGraph.rev (g : DepGraph) (p : String) : List String := alookup p g.revA

/-- Well-formedness of the forward map, as guaranteed by `refresh_packages`:
package names are unique (Python dict keys) and every recorded dependency is
itself a known package (`deps.intersection(available_packages.keys())`). -/
def DepGraph.WF (g : DepGraph) : Prop :=
  (g.fwdA.map Prod.fst).Nodup ∧ ∀ e ∈ g.fwdA, ∀ q ∈ e.2, q ∈ g.fwdA.map Prod.fst

instance (g : DepGraph) : Decidable g.WF := by
  unfold DepGraph.WF; infer_instance

theorem alookup_eq_nil_of_not_mem {p : String} :
    ∀ {l : List (String × List String)}, p ∉ l.map Prod.fst → alookup p l = []
  | [], _ => rfl
  | e :: es, h => by
    have h1 : e.1 ≠ p := fun he => h (by simp [he])
    have h2 : p ∉ es.map Prod.fst := fun hm => h (by simp [hm])
    simp [alookup, h1, alookup_eq_nil_of_not_mem h2]

theorem mem_alookup_exists {p x : String} :
    ∀ {l : List (String × List String)}, x ∈ alookup p l → ∃ e ∈ l, e.1 = p ∧ x ∈ e.2
  | [], h => by simp [alookup] at h
  | e :: es, h => by
    by_cases he : e.1 = p
    · simp only [alookup, if_pos he] at h
      exact ⟨e, by simp, he, h⟩
    · simp only [alookup, if_neg he] at h
      obtain ⟨e', he', hp, hx⟩ := mem_alookup_exists h
      exact ⟨e', by simp [he'], hp, hx⟩

theorem DepGraph.fwd_eq_nil_of_not_mem {g : DepGraph} {p : String}
    (h : p ∉ g.keys) : g.fwd p = [] :=
  alookup_eq_nil_of_not_mem h

theorem DepGraph.mem_keys_of_mem_fwd {g : DepGraph} (hWF : g.WF) {p q : String}
    (h : q ∈ g.fwd p) : q ∈ g.keys := by
  obtain ⟨e, he, _, hq⟩ := mem_alookup_exists h
  exact hWF.2 e he q hq

/-! ### Selection propagation

`select_dependencies` and `deselect_dependent_packages` from
`WorkspaceManagerGUI`, with the checkbox state carried explicitly.  The
Python recursion terminates because the `visited` set only grows and is
bounded by the package set; here the recursion carries a fuel argument and
the theorems show that `keys.length + 1` fuel is enough. -/

/-- Model of `checkbox.setChecked(True)` on the modelled state. -/
def setCk (checked : List String) (p : String) : List String :=
  if p ∈ checked then checked else p :: checked

/-- Model of `checkbox.setChecked(False)` on the modelled state. -/
def clearCk (checked : List String) (p : String) : List String :=
  checked.filter (fun q => q != p)

/-- The mutable state threaded through one propagation pass: the `visited`
set and the checkbox states. -/
structure PropSt where
  vis : List String
  checked : List String
deriving DecidableEq

/-- Model of `WorkspaceManagerGUI.select_dependencies(package_name, visited)`:

    if package_name in visited: return
    visited.add(package_name)
    if package_name in self.package_checkboxes:
        self.package_checkboxes[package_name].setChecked(True)
    for dep in self.package_dependencies.get(package_name, set()):
        self.select_dependencies(dep, visited)
-/
def selectDeps (g : DepGraph) : Nat → String → PropSt → PropSt
  | 0, _, st => st
  | fuel + 1, p, st =>
    if p ∈ st.vis then st
    else
      let st1 : PropSt :=
        { vis := p :: st.vis
          checked := if p ∈ g.keys then setCk st.checked p else st.checked }
      (g.fwd p).foldl (fun acc d => selectDeps g fuel d acc) st1

/-- Model of `WorkspaceManagerGUI.deselect_dependent_packages(package_name, visited)`:

    if package_name in visited: return
    visited.add(package_name)
    for dep in self.reverse_dependencies.get(package_name, set()):
        if dep in self.package_checkboxes:
            self.package_checkboxes[dep].setChecked(False)
            self.deselect_dependent_packages(dep, visited)
-/
def deselectDeps (g : DepGraph) : Nat → String → PropSt → PropSt
  | 0, _, st => st
  | fuel + 1, p, st =>
    if p ∈ st.vis then st
    else
      (g.rev p).foldl
        (fun acc d =>
          if d ∈ g.keys then
            deselectDeps g fuel d { vis := acc.vis, checked := clearCk acc.checked d }
          else acc)
        { vis := p :: st.vis, checked := st.checked }

/-- Fuel sufficient for one propagation pass (the recursion depth is bounded
by the number of packages reachable through the workspace-restricted maps). -/
def propFuel (g : DepGraph) : Nat := g.keys.length + 1

/-- A top-level `select_dependencies(p)` call, as issued by
`on_package_checkbox_changed` when checkbox `p` became checked. -/
def select_dependencies (g : DepGraph) (p : String) (checked : List String) : List String :=
  (selectDeps g (propFuel g) p { vis := [], checked := checked }).checked

/-- A top-level `deselect_dependent_packages(p)` call, as issued by
`on_package_checkbox_changed` when checkbox `p` became unchecked. -/
def deselect_dependent_packages (g : DepGraph) (p : String) (checked : List String) :
    List String :=
  (deselectDeps g (propFuel g) p { vis := [], checked := checked }).checked

/-- A user toggling package `p` on: the click checks the box itself, then the
`stateChanged` handler runs `select_dependencies(p)`. -/
def userSelect (g : DepGraph) (p : String) (checked : List String) : List String :=
  select_dependencies g p (setCk checked p)

/-- A user toggling package `p` off: the click unchecks the box itself, then
the `stateChanged` handler runs `deselect_dependent_packages(p)`. -/
def userDeselect (g : DepGraph) (p : String) (checked : List String) : List String :=
  deselect_dependent_packages g p (clearCk checked p)

/-- Forward-edge reachability (zero or more hops) in the dependency graph. -/
inductive Reaches (g : DepGraph) : String → String → Prop
  | refl (p : String) : Reaches g p p
  | step {p q r : String} : q ∈ g.fwd p → Reaches g q r → Reaches g p r

theorem Reaches.mem_keys {g : DepGraph} (hWF : g.WF) {p q : String}
    (hp : p ∈ g.keys) (h : Reaches g p q) : q ∈ g.keys := by
  induction h with
  | refl => exact hp
  | step hq _ ih => exact ih (g.mem_keys_of_mem_fwd hWF hq)

/-! ### The post-propagation invariant for `select_dependencies` -/

/-- Number of packages not yet visited; the fuel certificates are phrased
against this measure. -/
def unvisited (g : DepGraph) (vis : List String) : Nat :=
  (g.keys.filter (fun q => decide (q ∉ vis))).length

theorem unvisited_le_of_subset {g : DepGraph} {vis vis' : List String}
    (h : ∀ x ∈ vis, x ∈ vis') : unvisited g vis' ≤ unvisited g vis := by
  unfold unvisited
  apply List.Sublist.length_le
  apply List.monotone_filter_right
  intro q hq
  simp only [decide_eq_true_eq] at hq ⊢
  exact fun hmem => hq (h q hmem)

theorem unvisited_cons_lt {g : DepGraph} {vis : List String} {p : String}
    (hk : p ∈ g.keys) (hv : p ∉ vis) : unvisited g (p :: vis) < unvisited g vis := by
  unfold unvisited
  have hsub : (g.keys.filter (fun q => decide (q ∉ p :: vis))).Sublist
      (g.keys.filter (fun q => decide (q ∉ vis))) := by
    apply List.monotone_filter_right
    intro q hq
    simp only [decide_eq_true_eq, List.mem_cons] at hq ⊢
    exact fun hmem => hq (Or.inr hmem)
  rcases Nat.lt_or_ge (g.keys.filter (fun q => decide (q ∉ p :: vis))).length
      (g.keys.filter (fun q => decide (q ∉ vis))).length with h | h
  · exact h
  · exfalso
    have heq := hsub.eq_of_length_le h
    have hp1 : p ∈ g.keys.filter (fun q => decide (q ∉ vis)) := by
      simp [List.mem_filter, hk, hv]
    rw [← heq] at hp1
    simp [List.mem_filter] at hp1

/-- The postcondition of one (sub)call of `select_dependencies`: the visited
set and checkbox set only grow, every newly visited package got its checkbox
checked (if it is a known package), and all its dependencies got visited. -/
def SelPost (g : DepGraph) (st st' : PropSt) : Prop :=
  (∀ x ∈ st.vis, x ∈ st'.vis) ∧ (∀ x ∈ st.checked, x ∈ st'.checked) ∧
  (∀ q ∈ st'.vis, q ∉ st.vis →
    (q ∈ g.keys → q ∈ st'.checked) ∧ ∀ r ∈ g.fwd q, r ∈ st'.vis)

theorem SelPost.self {g : DepGraph} {st : PropSt} : SelPost g st st :=
  ⟨fun _ h => h, fun _ h => h, fun _ hq hnq => False.elim (hnq hq)⟩

theorem SelPost.compose {g : DepGraph} {s1 s2 s3 : PropSt}
    (h12 : SelPost g s1 s2) (h23 : SelPost g s2 s3) : SelPost g s1 s3 := by
  refine ⟨fun x hx => h23.1 x (h12.1 x hx), fun x hx => h23.2.1 x (h12.2.1 x hx), ?_⟩
  intro q hq3 hq1
  by_cases hq2 : q ∈ s2.vis
  · obtain ⟨hck, hfwd⟩ := h12.2.2 q hq2 hq1
    exact ⟨fun hk => h23.2.1 q (hck hk), fun r hr => h23.1 r (hfwd r hr)⟩
  · exact h23.2.2 q hq3 hq2

theorem mem_setCk_self {c : List String} {p : String} : p ∈ setCk c p := by
  unfold setCk
  by_cases h : p ∈ c <;> simp [h]

theorem mem_setCk_of_mem {c : List String} {p x : String} (h : x ∈ c) : x ∈ setCk c p := by
  unfold setCk
  by_cases hp : p ∈ c <;> simp [hp, h]

theorem selectDeps_foldl_post (g : DepGraph) (fuel : Nat)
    (IH : ∀ st p, unvisited g st.vis < fuel →
      SelPost g st (selectDeps g fuel p st) ∧ p ∈ (selectDeps g fuel p st).vis) :
    ∀ (ds : List String) (st : PropSt), unvisited g st.vis < fuel →
      SelPost g st (ds.foldl (fun acc d => selectDeps g fuel d acc) st) ∧
      ∀ d ∈ ds, d ∈ (ds.foldl (fun acc d => selectDeps g fuel d acc) st).vis := by
  intro ds
  induction ds with
  | nil => intro st _; exact ⟨SelPost.self, by simp⟩
  | cons d ds ih =>
    intro st hfu
    obtain ⟨hpost1, hdvis⟩ := IH st d hfu
    have hfu1 : unvisited g (selectDeps g fuel d st).vis < fuel :=
      lt_of_le_of_lt (unvisited_le_of_subset hpost1.1) hfu
    obtain ⟨hpost2, hall⟩ := ih (selectDeps g fuel d st) hfu1
    rw [List.foldl_cons]
    refine ⟨hpost1.compose hpost2, ?_⟩
    intro d' hd'
    rcases List.mem_cons.mp hd' with h | h
    · exact h ▸ hpost2.1 d hdvis
    · exact hall d' h

theorem selectDeps_post (g : DepGraph) :
    ∀ fuel (st : PropSt) (p : String), unvisited g st.vis < fuel →
      SelPost g st (selectDeps g fuel p st) ∧ p ∈ (selectDeps g fuel p st).vis := by
  intro fuel
  induction fuel with
  | zero => intro st p h; exact absurd h (Nat.not_lt_zero _)
  | succ f ih =>
    intro st p h
    by_cases hv : p ∈ st.vis
    · simp only [selectDeps, if_pos hv]
      exact ⟨SelPost.self, hv⟩
    · simp only [selectDeps, if_neg hv]
      by_cases hk : p ∈ g.keys
      · simp only [if_pos hk]
        set st1 : PropSt := { vis := p :: st.vis, checked := setCk st.checked p } with hst1
        have hlt1 : unvisited g st1.vis < f := by
          have h1 : unvisited g (p :: st.vis) < unvisited g st.vis := unvisited_cons_lt hk hv
          have h2 : unvisited g st1.vis = unvisited g (p :: st.vis) := rfl
          omega
        obtain ⟨hpost, hall⟩ := selectDeps_foldl_post g f ih (g.fwd p) st1 hlt1
        set R := (g.fwd p).foldl (fun acc d => selectDeps g f d acc) st1 with hR
        have hpR : p ∈ R.vis := hpost.1 p (by simp [hst1])
        refine ⟨⟨fun x hx => hpost.1 x (by simp [hst1, hx]),
                 fun x hx => hpost.2.1 x (mem_setCk_of_mem hx), ?_⟩, hpR⟩
        intro q hqR hqst
        by_cases hq1 : q ∈ st1.vis
        · have hqp : q = p := by
            have : q ∈ p :: st.vis := hq1
            rcases List.mem_cons.mp this with h' | h'
            · exact h'
            · exact absurd h' hqst
          subst hqp
          exact ⟨fun _ => hpost.2.1 q mem_setCk_self, fun r hr => hall r hr⟩
        · exact hpost.2.2 q hqR hq1
      · simp only [if_neg hk]
        rw [g.fwd_eq_nil_of_not_mem hk]
        simp only [List.foldl_nil]
        refine ⟨⟨fun x hx => by simp [hx], fun x hx => hx, ?_⟩, by simp⟩
        intro q hq hqst
        have hqp : q = p := by
          rcases List.mem_cons.mp hq with h' | h'
          · exact h'
          · exact absurd h' hqst
        subst hqp
        rw [g.fwd_eq_nil_of_not_mem hk]
        exact ⟨fun hqk => absurd hqk hk, by simp⟩

/-- Claim C1: for every package `P` in the graph (acyclic or cyclic), after a
top-level `select_dependencies(P)` propagation completes, every package
reachable from `P` via zero or more forward edges has its checkbox checked. -/
theorem select_reaches_all (g : DepGraph) (hWF : g.WF) (p q : String)
    (hp : p ∈ g.keys) (hpq : Reaches g p q) (checked : List String) :
    q ∈ select_dependencies g p checked := by
  have hfuel : unvisited g (PropSt.mk [] checked).vis < propFuel g := by
    show unvisited g [] < propFuel g
    unfold unvisited propFuel
    have heq : g.keys.filter (fun q => decide (q ∉ ([] : List String))) = g.keys := by
      simp
    rw [heq]
    omega
  obtain ⟨hpost, hpvis⟩ := selectDeps_post g (propFuel g) ⟨[], checked⟩ p hfuel
  set R := selectDeps g (propFuel g) p ⟨[], checked⟩ with hRdef
  have hreach : ∀ a b, Reaches g a b → a ∈ R.vis → b ∈ R.vis := by
    intro a b hab
    induction hab with
    | refl => exact id
    | step hq _ ih =>
      intro ha
      exact ih ((hpost.2.2 _ ha (by simp)).2 _ hq)
  have hqvis : q ∈ R.vis := hreach p q hpq hpvis
  have hqk : q ∈ g.keys := hpq.mem_keys hWF hp
  exact (hpost.2.2 q hqvis (by simp)).1 hqk

/-- A two-package graph (`A` depends on `B`) used as a concrete witness. -/
def gAB : DepGraph := ⟨[("A", ["B"]), ("B", [])], [("A", []), ("B", ["A"])]⟩

theorem select_reaches_all_witness :
    gAB.WF ∧ "A" ∈ gAB.keys ∧ Reaches gAB "A" "B" ∧
      "B" ∈ select_dependencies gAB "A" [] := by
  refine ⟨by decide, by decide, Reaches.step (by decide) (Reaches.refl "B"), ?_⟩
  exact select_reaches_all gAB (by decide) "A" "B" (by decide)
    (Reaches.step (by decide) (Reaches.refl "B")) []

/-! ### End-to-end selection scenario (A depends on B, B depends on C) -/

/-- The three-package graph `A → B → C`, with forward and reverse maps as
`refresh_packages` builds them. -/
def gABC : DepGraph :=
  ⟨[("A", ["B"]), ("B", ["C"]), ("C", [])],
   [("A", []), ("B", ["A"]), ("C", ["B"])]⟩

/-- Claim C2: in the graph `A → B → C` starting unselected, a user toggle
selecting `A` leaves `A`, `B`, `C` all selected; a subsequent user toggle
deselecting `B` leaves `B` and `A` unselected while `C` remains selected
(deselection walks only reverse edges, never the deselected package's own
dependencies). -/
theorem select_deselect_scenario :
    ("A" ∈ userSelect gABC "A" [] ∧ "B" ∈ userSelect gABC "A" [] ∧
      "C" ∈ userSelect gABC "A" []) ∧
    ("A" ∉ userDeselect gABC "B" (userSelect gABC "A" []) ∧
      "B" ∉ userDeselect gABC "B" (userSelect gABC "A" []) ∧
      "C" ∈ userDeselect gABC "B" (userSelect gABC "A" [])) := by
  decide

/-! ### Highlight classification (`DependencyGraphScene.update_node_highlights`) -/

/-- Highlight tags.  The scene marks the clicked node as selected (rendered
as the focused node) and every other node `incoming`, `outgoing`, or plain. -/
inductive Tag where
  | focused : Tag
  | incoming : Tag
  | outgoing : Tag
  | untagged : Tag
deriving DecidableEq

/-- Model of `update_node_highlights` for one node `p`: with no focused node every tag
is cleared; with focused node `f`, the sets
`incoming_nodes = {src | (src, dest) ∈ edges, dest = f}` and
`outgoing_nodes = {dest | (src, dest) ∈ edges, src = f}` are computed and the
branches are checked in the source's order (focused, then incoming, then
outgoing). -/
def classify (focused : Option String) (edges : List (String × String)) (p : String) : Tag :=
  match focused with
  | none => Tag.untagged
  | some f =>
    if p = f then Tag.focused
    else if p ∈ (edges.filter (fun e => e.2 == f)).map Prod.fst then Tag.incoming
    else if p ∈ (edges.filter (fun e => e.1 == f)).map Prod.snd then Tag.outgoing
    else Tag.untagged

/-- The edge list of the graph `A → B → C`. -/
def edgesABC : List (String × String) := [("A", "B"), ("B", "C")]

/-- Claim C6: focusing `B` in the graph with edges `A→B` and `B→C` tags `A`
as incoming, `C` as outgoing, `B` itself as focused, and every other node as
untagged. -/
theorem classify_focus_scenario :
    classify (some "B") edgesABC "A" = Tag.incoming ∧
    classify (some "B") edgesABC "C" = Tag.outgoing ∧
    classify (some "B") edgesABC "B" = Tag.focused ∧
    ∀ p : String, p ≠ "A" → p ≠ "B" → p ≠ "C" →
      classify (some "B") edgesABC p = Tag.untagged := by
  refine ⟨by decide, by decide, by decide, ?_⟩
  intro p hA hB hC
  simp only [classify, edgesABC]
  rw [if_neg hB]
  rw [if_neg (by simp [hA]), if_neg (by simp [hC])]

theorem classify_focus_scenario_witness :
    ("D" : String) ≠ "A" ∧ ("D" : String) ≠ "B" ∧ ("D" : String) ≠ "C" ∧
      classify (some "B") edgesABC "D" = Tag.untagged := by
  refine ⟨by decide, by decide, by decide,
    (classify_focus_scenario.2.2.2) "D" (by decide) (by decide) (by decide)⟩

/-! ### Topological layering (`_build_dependency_scene`)

    deps_map = {n: set() for n in nodes}
    for s, d in edges: deps_map[s].add(d)
    indeg = {n: 0 for n in nodes}
    for s in nodes:
        for d in deps_map[s]: indeg[d] += 1
    levels = []
    current = [n for n in nodes if indeg[n] == 0]
    seen = set()
    while current:
        levels.append(current)
        next_level = []
        for u in current:
            seen.add(u)
            for v in deps_map[u]:
                indeg[v] -= 1
                if indeg[v] == 0: next_level.append(v)
            current = next_level
    remain = [n for n in nodes if n not in seen]
    if remain: levels.append(remain)
-/

/-- Model of `deps_map`: the successor set of `n` induced on `nodes` (a Python set,
hence deduplicated).  The Python dictionary has exactly the keys `nodes`. -/
def depsMapOf (nodes : List String) (edges : List (String × String)) (n : String) :
    List String :=
  if n ∈ nodes then ((edges.filter (fun e => e.1 == n)).map Prod.snd).dedup else []

/-- The initial `indeg` dictionary: how many nodes list `v` in their
`deps_map` entry.  Kept as an integer because the loop later decrements. -/
def indeg0 (nodes : List String) (edges : List (String × String)) (v : String) : Int :=
  ((nodes.filter (fun s => decide (v ∈ depsMapOf nodes edges s))).length : Int)

/-- Processing one node `u` of the current frontier: decrement the in-degree
of each successor and append those that reach zero to `next_level`. -/
def processNode (dm : String → List String) (u : String)
    (st : (String → Int) × List String) : (String → Int) × List String :=
  (dm u).foldl
    (fun st v =>
      let ind : String → Int := fun x => if x = v then st.1 x - 1 else st.1 x
      if ind v = 0 then (ind, st.2 ++ [v]) else (ind, st.2))
    st

/-- The `while current:` loop, returning the emitted layers and the final
`seen` set.  The fuel argument bounds the number of iterations; theorems show
`nodes.length + 1` iterations always suffice. -/
def peel (dm : String → List String) :
    Nat → List String → (String → Int) → List String → List (List String) × List String
  | 0, _, _, seen => ([], seen)
  | fuel + 1, current, indeg, seen =>
    if current = [] then ([], seen)
    else
      let step := current.foldl (fun st u => processNode dm u st) (indeg, [])
      let rest := peel dm fuel step.2 step.1 (seen ++ current)
      (current :: rest.1, rest.2)

/-- The layering computation with explicit loop fuel. -/
def topologicalLayersFuel (nodes : List String) (edges : List (String × String))
    (fuel : Nat) : List (List String) :=
  let dm := depsMapOf nodes edges
  let r := peel dm fuel (nodes.filter (fun n => decide (indeg0 nodes edges n = 0)))
    (indeg0 nodes edges) []
  let remain := nodes.filter (fun n => decide (n ∉ r.2))
  if remain = [] then r.1 else r.1 ++ [remain]

/-- Model of `topologicalLayers`: the layer computation of `_build_dependency_scene`. -/
def topologicalLayers (nodes : List String) (edges : List (String × String)) :
    List (List String) :=
  topologicalLayersFuel nodes edges (nodes.length + 1)

/-- Index of the layer a node was placed in. -/
def layerIdx (levels : List (List String)) (x : String) : Nat :=
  levels.findIdx (fun l => decide (x ∈ l))

/-- The final layer of the computed layering. -/
def lastLayer (levels : List (List String)) : List String :=
  levels.getLastD []

/-- One directed edge step of the drawn graph. -/
def EdgeStep (edges : List (String × String)) (a b : String) : Prop := (a, b) ∈ edges

instance (edges : List (String × String)) : DecidableRel (EdgeStep edges) :=
  fun a b => inferInstanceAs (Decidable ((a, b) ∈ edges))

/-- A directed cycle through `v` whose other members are `l`, i.e. a
nonempty edge path `v → … → v`. -/
def CycleAt (edges : List (String × String)) (v : String) (l : List String) : Prop :=
  List.Chain (EdgeStep edges) v (l ++ [v])

/-- Claim C10: in `{X→Y, Y→X, X→Z}` the zero-in-degree frontier is empty, so
everything lands in the single final layer: the cycle members `X`, `Y` share
it with `Z`, even though `Z` lies on no cycle at all (it is merely reachable
from the cycle, so its in-degree never drops to zero). -/
theorem final_layer_collects_unpeeled :
    topologicalLayers ["X", "Y", "Z"] [("X", "Y"), ("Y", "X"), ("X", "Z")] =
      [["X", "Y", "Z"]] ∧
    CycleAt [("X", "Y"), ("Y", "X"), ("X", "Z")] "X" ["Y"] ∧
    ∀ l : List String, ¬ CycleAt [("X", "Y"), ("Y", "X"), ("X", "Z")] "Z" l := by
  refine ⟨by decide,
    List.Chain.cons (by decide) (List.Chain.cons (by decide) List.Chain.nil), ?_⟩
  intro l h
  cases l with
  | nil =>
    cases h with
    | cons hab _ => exact absurd hab (by decide)
  | cons x xs =>
    rw [CycleAt, List.cons_append] at h
    cases h with
    | cons hab _ =>
      have : ("Z", x) ∈ [("X", "Y"), ("Y", "X"), ("X", "Z")] := hab
      simp at this

/-! ### Arrowhead geometry (`_build_dependency_scene`, edge drawing)

    dx = end.x() - start.x()
    dy = end.y() - start.y()
    length = max((dx*dx + dy*dy) ** 0.5, 1.0)
    ux, uy = dx/length, dy/length
    arrow_size = 8
    p1 = end
    p2 = QPointF(end.x() - ux*arrow_size - uy*arrow_size/2,
                 end.y() - uy*arrow_size + ux*arrow_size/2)
    p3 = QPointF(end.x() - ux*arrow_size + uy*arrow_size/2,
                 end.y() - uy*arrow_size - ux*arrow_size/2)

The real numbers stand in for the floating-point coordinates. -/

/-- The clamped edge length used as the arrowhead divisor. -/
noncomputable def arrowLength (s e : ℝ × ℝ) : ℝ :=
  max (Real.sqrt ((e.1 - s.1) * (e.1 - s.1) + (e.2 - s.2) * (e.2 - s.2))) 1

/-- Arrowhead corner `p2`. -/
noncomputable def arrowP2 (s e : ℝ × ℝ) : ℝ × ℝ :=
  (e.1 - (e.1 - s.1) / arrowLength s e * 8 - (e.2 - s.2) / arrowLength s e * 8 / 2,
   e.2 - (e.2 - s.2) / arrowLength s e * 8 + (e.1 - s.1) / arrowLength s e * 8 / 2)

/-- Arrowhead corner `p3`. -/
noncomputable def arrowP3 (s e : ℝ × ℝ) : ℝ × ℝ :=
  (e.1 - (e.1 - s.1) / arrowLength s e * 8 + (e.2 - s.2) / arrowLength s e * 8 / 2,
   e.2 - (e.2 - s.2) / arrowLength s e * 8 - (e.1 - s.1) / arrowLength s e * 8 / 2)

/-- Claim C9: the arrowhead divisor is clamped to at least `1`, so even an
edge whose anchor points coincide divides by a nonzero length, and for such a
degenerate edge all three arrowhead corners collapse onto the endpoint (the
arrowhead renders as a point; `p1 = end` holds by construction). -/
theorem arrowhead_no_div_by_zero (s e : ℝ × ℝ) :
    arrowLength s e ≠ 0 ∧ (s = e → arrowP2 s e = e ∧ arrowP3 s e = e) := by
  have hle : (1 : ℝ) ≤ arrowLength s e := le_max_right _ _
  refine ⟨by positivity, ?_⟩
  rintro rfl
  unfold arrowP2 arrowP3
  simp

theorem arrowhead_no_div_by_zero_witness :
    ((0, 0) : ℝ × ℝ) = ((0, 0) : ℝ × ℝ) ∧
      arrowLength ((0, 0) : ℝ × ℝ) ((0, 0) : ℝ × ℝ) ≠ 0 ∧
      arrowP2 ((0, 0) : ℝ × ℝ) ((0, 0) : ℝ × ℝ) = ((0, 0) : ℝ × ℝ) :=
  ⟨rfl, (arrowhead_no_div_by_zero ((0, 0) : ℝ × ℝ) ((0, 0) : ℝ × ℝ)).1,
    ((arrowhead_no_div_by_zero ((0, 0) : ℝ × ℝ) ((0, 0) : ℝ × ℝ)).2 rfl).1⟩

/-! ### Graph construction (`refresh_packages`, second pass)

    for package_name, xml_path in available_packages.items():
        deps = self.get_package_dependencies(xml_path)
        workspace_deps = deps.intersection(available_packages.keys())
        self.package_dependencies[package_name] = workspace_deps
        for dep in workspace_deps:
            self.reverse_dependencies[dep].add(package_name)
-/

/-- Adding `x` to a Python set modelled as a list. -/
def addOnce (l : List String) (x : String) : List String :=
  if x ∈ l then l else l ++ [x]

theorem mem_addOnce {l : List String} {x y : String} :
    y ∈ addOnce l x ↔ y ∈ l ∨ y = x := by
  unfold addOnce
  by_cases h : x ∈ l
  · simp only [if_pos h]
    constructor
    · exact Or.inl
    · rintro (hy | rfl) <;> [exact hy; exact h]
  · simp [if_neg h]

/-- Model of `self.reverse_dependencies[dep].add(package_name)` on the reverse
dictionary (no-op on a missing key, which `refresh_packages` never hits
because every `dep` is itself a key). -/
def addRev (revA : List (String × List String)) (dep name : String) :
    List (String × List String) :=
  revA.map (fun e => if e.1 = dep then (e.1, addOnce e.2 name) else e)

theorem addRev_keys (revA : List (String × List String)) (dep name : String) :
    (addRev revA dep name).map Prod.fst = revA.map Prod.fst := by
  unfold addRev
  rw [List.map_map]
  apply List.map_congr_left
  intro e _
  by_cases h : e.1 = dep <;> simp [h]

theorem mem_alookup_addRev {k dep name x : String} :
    ∀ revA : List (String × List String),
      x ∈ alookup k (addRev revA dep name) ↔
        x ∈ alookup k revA ∨ (k = dep ∧ dep ∈ revA.map Prod.fst ∧ x = name)
  | [] => by simp [addRev, alookup]
  | e :: es => by
    have head_eq : addRev (e :: es) dep name =
        (if e.1 = dep then (e.1, addOnce e.2 name) else e) :: addRev es dep name := rfl
    by_cases hek : e.1 = k
    · by_cases hed : e.1 = dep
      · have hkd : k = dep := by rw [← hek, hed]
        rw [head_eq, if_pos hed]
        rw [show alookup k ((e.1, addOnce e.2 name) :: addRev es dep name)
            = addOnce e.2 name from by simp [alookup, hek]]
        rw [show alookup k (e :: es) = e.2 from by simp [alookup, hek]]
        rw [mem_addOnce]
        constructor
        · rintro (hx | rfl)
          · exact Or.inl hx
          · exact Or.inr ⟨hkd, by simp [← hed], rfl⟩
        · rintro (hx | ⟨_, _, rfl⟩)
          · exact Or.inl hx
          · exact Or.inr rfl
      · rw [head_eq, if_neg hed]
        rw [show alookup k (e :: addRev es dep name) = e.2 from by simp [alookup, hek]]
        rw [show alookup k (e :: es) = e.2 from by simp [alookup, hek]]
        constructor
        · exact Or.inl
        · rintro (hx | ⟨hkdep, _, rfl⟩)
          · exact hx
          · exact absurd (hek.trans hkdep) hed
    · have h1 : alookup k
          ((if e.1 = dep then (e.1, addOnce e.2 name) else e) :: addRev es dep name)
          = alookup k (addRev es dep name) := by
        by_cases hed : e.1 = dep
        · have hdk : ¬(dep = k) := fun h => hek (by rw [hed, h])
          simp [alookup, hed, hdk]
        · simp [alookup, hek, hed]
      rw [head_eq, h1]
      rw [show alookup k (e :: es) = alookup k es from by simp [alookup, hek]]
      rw [mem_alookup_addRev es]
      constructor
      · rintro (hx | ⟨rfl, hdm, rfl⟩)
        · exact Or.inl hx
        · exact Or.inr ⟨rfl, by simp [hdm], rfl⟩
      · rintro (hx | ⟨rfl, hdm, rfl⟩)
        · exact Or.inl hx
        · have : k = e.1 ∨ k ∈ es.map Prod.fst := by simpa using hdm
          rcases this with h' | h'
          · exact absurd h'.symm hek
          · exact Or.inr ⟨rfl, h', rfl⟩

theorem foldl_addRev_keys (ds : List String) (a : String) :
    ∀ r : List (String × List String),
      ((ds.foldl (fun r d => addRev r d a) r).map Prod.fst) = r.map Prod.fst := by
  induction ds with
  | nil => intro r; rfl
  | cons d ds ih =>
    intro r
    rw [List.foldl_cons, ih, addRev_keys]

theorem mem_alookup_foldl_addRev {k x : String} (ds : List String) (a : String) :
    ∀ r : List (String × List String),
      x ∈ alookup k (ds.foldl (fun r d => addRev r d a) r) ↔
        x ∈ alookup k r ∨ (k ∈ ds ∧ k ∈ r.map Prod.fst ∧ x = a) := by
  induction ds with
  | nil => intro r; simp
  | cons d ds ih =>
    intro r
    rw [List.foldl_cons, ih, mem_alookup_addRev, addRev_keys]
    constructor
    · rintro ((hx | ⟨rfl, hdm, rfl⟩) | ⟨hds, hkm, rfl⟩)
      · exact Or.inl hx
      · exact Or.inr ⟨by simp, hdm, rfl⟩
      · exact Or.inr ⟨by simp [hds], hkm, rfl⟩
    · rintro (hx | ⟨hkds, hkm, rfl⟩)
      · exact Or.inl (Or.inl hx)
      · rcases List.mem_cons.mp hkds with rfl | h'
        · exact Or.inl (Or.inr ⟨rfl, hkm, rfl⟩)
        · exact Or.inr ⟨h', hkm, rfl⟩

theorem outerFold_keys (es : List (String × List String)) :
    ∀ r : List (String × List String),
      ((es.foldl (fun racc e => e.2.foldl (fun r d => addRev r d e.1) racc) r).map
        Prod.fst) = r.map Prod.fst := by
  induction es with
  | nil => intro r; rfl
  | cons e es ih =>
    intro r
    rw [List.foldl_cons, ih, foldl_addRev_keys]

theorem mem_alookup_outerFold {k x : String} (es : List (String × List String)) :
    ∀ r : List (String × List String),
      x ∈ alookup k (es.foldl (fun racc e => e.2.foldl (fun r d => addRev r d e.1) racc) r) ↔
        x ∈ alookup k r ∨ ∃ e ∈ es, x = e.1 ∧ k ∈ e.2 ∧ k ∈ r.map Prod.fst := by
  induction es with
  | nil => intro r; simp
  | cons e es ih =>
    intro r
    rw [List.foldl_cons, ih, foldl_addRev_keys, mem_alookup_foldl_addRev]
    constructor
    · rintro ((hx | ⟨hke, hkm, rfl⟩) | ⟨e', he', rfl, hke', hkm⟩)
      · exact Or.inl hx
      · exact Or.inr ⟨e, by simp, rfl, hke, hkm⟩
      · exact Or.inr ⟨e', by simp [he'], rfl, hke', hkm⟩
    · rintro (hx | ⟨e', he', rfl, hke', hkm⟩)
      · exact Or.inl (Or.inl hx)
      · rcases List.mem_cons.mp he' with rfl | h'
        · exact Or.inl (Or.inr ⟨hke', hkm, rfl⟩)
        · exact Or.inr ⟨e', h', rfl, hke', hkm⟩

theorem alookup_initRev (names : List String) (k : String) :
    alookup k (names.map (fun n => (n, ([] : List String)))) = [] := by
  induction names with
  | nil => rfl
  | cons n ns ih =>
    by_cases h : n = k <;> simp [alookup, h, ih]

theorem mem_alookup_iff_of_nodup {k x : String} :
    ∀ {l : List (String × List String)}, (l.map Prod.fst).Nodup →
      (x ∈ alookup k l ↔ ∃ e ∈ l, e.1 = k ∧ x ∈ e.2)
  | [], _ => by simp [alookup]
  | e :: es, h => by
    have hnd : (es.map Prod.fst).Nodup := (List.nodup_cons.mp h).2
    have hhd : e.1 ∉ es.map Prod.fst := (List.nodup_cons.mp h).1
    by_cases hek : e.1 = k
    · rw [show alookup k (e :: es) = e.2 from by simp [alookup, hek]]
      constructor
      · intro hx; exact ⟨e, by simp, hek, hx⟩
      · rintro ⟨e', he', hk', hx'⟩
        rcases List.mem_cons.mp he' with rfl | h'
        · exact hx'
        · exfalso
          apply hhd
          rw [hek, ← hk']
          exact List.mem_map.mpr ⟨e', h', rfl⟩
    · rw [show alookup k (e :: es) = alookup k es from by simp [alookup, hek]]
      rw [mem_alookup_iff_of_nodup hnd]
      constructor
      · rintro ⟨e', he', hk', hx'⟩
        exact ⟨e', by simp [he'], hk', hx'⟩
      · rintro ⟨e', he', hk', hx'⟩
        rcases List.mem_cons.mp he' with rfl | h'
        · exact absurd hk' hek
        · exact ⟨e', h', hk', hx'⟩

/-- Model of `refresh_packages`'s graph construction from the scanned raw package
list `(name, parsed dependency set)`: forward edges are the raw dependencies
intersected with the known package names; reverse edges are accumulated by
the nested loop. -/
def buildGraph (raw : List (String × List String)) : DepGraph :=
  let names := raw.map Prod.fst
  let fwdA := raw.map (fun e => (e.1, (e.2.filter (fun d => decide (d ∈ names))).dedup))
  let revA := fwdA.foldl
    (fun racc e => e.2.foldl (fun r d => addRev r d e.1) racc)
    (names.map (fun n => (n, ([] : List String))))
  ⟨fwdA, revA⟩

theorem buildGraph_fwdA (raw : List (String × List String)) :
    (buildGraph raw).fwdA =
      raw.map (fun e =>
        (e.1, (e.2.filter (fun d => decide (d ∈ raw.map Prod.fst))).dedup)) := rfl

theorem buildGraph_revA (raw : List (String × List String)) :
    (buildGraph raw).revA =
      (buildGraph raw).fwdA.foldl
        (fun racc e => e.2.foldl (fun r d => addRev r d e.1) racc)
        ((raw.map Prod.fst).map (fun n => (n, ([] : List String)))) := rfl

theorem buildGraph_keys (raw : List (String × List String)) :
    (buildGraph raw).keys = raw.map Prod.fst := by
  rw [DepGraph.keys, buildGraph_fwdA, List.map_map]
  rfl

/-- Claim C8: after building the graph from any duplicate-free set of parsed
packages, the reverse map is exactly the transpose of the forward map
(`A ∈ reverse[B]` iff `B ∈ forward[A]`) and both maps are defined over
exactly the same key set. -/
theorem reverse_is_transpose (raw : List (String × List String))
    (hnd : (raw.map Prod.fst).Nodup) :
    (buildGraph raw).revA.map Prod.fst = (buildGraph raw).fwdA.map Prod.fst ∧
    ∀ A B : String, A ∈ (buildGraph raw).rev B ↔ B ∈ (buildGraph raw).fwd A := by
  have hfkeys : (buildGraph raw).fwdA.map Prod.fst = raw.map Prod.fst := buildGraph_keys raw
  have hinitkeys : ((raw.map Prod.fst).map (fun n => (n, ([] : List String)))).map Prod.fst
      = raw.map Prod.fst := by
    rw [List.map_map]; simp
  constructor
  · rw [buildGraph_revA, outerFold_keys, hinitkeys, hfkeys]
  · intro A B
    rw [DepGraph.rev, buildGraph_revA, mem_alookup_outerFold, alookup_initRev, hinitkeys]
    rw [DepGraph.fwd, mem_alookup_iff_of_nodup (by rw [hfkeys]; exact hnd)]
    simp only [List.not_mem_nil, false_or]
    constructor
    · rintro ⟨e, he, rfl, hBe, _⟩
      exact ⟨e, he, rfl, hBe⟩
    · rintro ⟨e, he, rfl, hBe⟩
      refine ⟨e, he, rfl, hBe, ?_⟩
      rw [buildGraph_fwdA] at he
      obtain ⟨e0, _, rfl⟩ := List.mem_map.mp he
      have := List.mem_dedup.mp hBe
      have := List.of_mem_filter this
      simpa using this

/-- A concrete three-package workspace with an external (dropped)
dependency, used as a witness. -/
def rawPkgs : List (String × List String) :=
  [("A", ["B", "ext"]), ("B", ["C"]), ("C", [])]

theorem reverse_is_transpose_witness :
    (rawPkgs.map Prod.fst).Nodup ∧
    ((buildGraph rawPkgs).revA.map Prod.fst = (buildGraph rawPkgs).fwdA.map Prod.fst ∧
      ∀ A B : String, A ∈ (buildGraph rawPkgs).rev B ↔ B ∈ (buildGraph rawPkgs).fwd A) :=
  ⟨by decide, reverse_is_transpose rawPkgs (by decide)⟩

/-! ### Manifest parsing and the scan (`get_package_name_from_xml`,
`get_package_dependencies`, `refresh_packages` first pass)

A `package.xml` document is modelled by its parse outcome: either
`ET.parse` raises `ParseError`, or it yields a root whose `<name>` element
may be missing (`root.find('name')` is `None`, so `.text` raises
`AttributeError`) or may have empty text, plus the dependency elements
`(tag, text)`. -/

inductive XmlResult where
  | parseError : XmlResult
  | parsed (nameTag : Option (Option String)) (depEntries : List (String × Option String)) :
      XmlResult
deriving DecidableEq

/-- Model of `get_package_name_from_xml`: `root.find('name').text`, with
`ET.ParseError` and `AttributeError` both caught and turned into `None`. -/
def get_package_name_from_xml : XmlResult → Option String
  | XmlResult.parseError => none
  | XmlResult.parsed none _ => none
  | XmlResult.parsed (some t) _ => t

/-- The dependency kinds recognized by `get_package_dependencies`. -/
def depTags : List String :=
  ["depend", "build_depend", "build_export_depend", "exec_depend", "test_depend"]

/-- Model of `get_package_dependencies`: for each recognized tag collect the elements
with truthy text into one set (`if dep.text: deps.add(dep.text)`);
`ParseError` yields the empty set. -/
def get_package_dependencies : XmlResult → List String
  | XmlResult.parseError => []
  | XmlResult.parsed _ entries =>
    ((depTags.map (fun t =>
        (entries.filter (fun e => e.1 == t)).filterMap
          (fun e => match e.2 with
            | some s => if s = "" then none else some s
            | none => none))).flatten).dedup

/-- Model of `available_packages[package_name] = package_xml_path` on the Python
dict: updating an existing key in place, appending a new one. -/
def dictInsert (d : List (String × XmlResult)) (k : String) (v : XmlResult) :
    List (String × XmlResult) :=
  if k ∈ d.map Prod.fst then d.map (fun e => if e.1 = k then (k, v) else e)
  else d ++ [(k, v)]

/-- One step of the first scanning pass of `refresh_packages`: a package is
recorded only when its parsed name is truthy (`if package_name:`). -/
def scanStep (acc : List (String × XmlResult)) (m : XmlResult) :
    List (String × XmlResult) :=
  match get_package_name_from_xml m with
  | some n => if n = "" then acc else dictInsert acc n m
  | none => acc

/-- The first pass of `refresh_packages` over the walked manifests. -/
def scanPackages (ms : List XmlResult) : List (String × XmlResult) :=
  ms.foldl scanStep []

/-- Both passes of `refresh_packages`: scan the manifests, then build the
forward/reverse dependency maps. -/
def refreshGraph (ms : List XmlResult) : DepGraph :=
  buildGraph ((scanPackages ms).map (fun e => (e.1, get_package_dependencies e.2)))

theorem mem_dictInsert_keys {d : List (String × XmlResult)} {k n : String} {v : XmlResult} :
    n ∈ (dictInsert d k v).map Prod.fst ↔ n ∈ d.map Prod.fst ∨ n = k := by
  unfold dictInsert
  by_cases h : k ∈ d.map Prod.fst
  · rw [if_pos h, List.map_map]
    have heq : (Prod.fst ∘ fun e : String × XmlResult => if e.1 = k then (k, v) else e)
        = Prod.fst := by
      funext e
      by_cases he : e.1 = k <;> simp [he]
    rw [heq]
    constructor
    · exact Or.inl
    · rintro (hn | rfl) <;> [exact hn; exact h]
  · rw [if_neg h]
    simp

theorem scanStep_keys {acc : List (String × XmlResult)} {m : XmlResult} {n : String}
    (h : n ∈ (scanStep acc m).map Prod.fst) :
    n ∈ acc.map Prod.fst ∨
      (n ≠ "" ∧ get_package_name_from_xml m = some n) := by
  revert h
  unfold scanStep
  cases hname : get_package_name_from_xml m with
  | none => intro h; exact Or.inl h
  | some n' =>
    intro h
    replace h : n ∈ (if n' = "" then acc else dictInsert acc n' m).map Prod.fst := h
    by_cases hn' : n' = ""
    · rw [if_pos hn'] at h; exact Or.inl h
    · rw [if_neg hn'] at h
      rcases mem_dictInsert_keys.mp h with h' | rfl
      · exact Or.inl h'
      · exact Or.inr ⟨hn', rfl⟩

theorem mem_scanFold_names :
    ∀ (ms : List XmlResult) (acc : List (String × XmlResult)) (n : String),
      n ∈ ((ms.foldl scanStep acc).map Prod.fst) →
      n ∈ acc.map Prod.fst ∨
        (n ≠ "" ∧ ∃ d ∈ ms, get_package_name_from_xml d = some n) := by
  intro ms
  induction ms with
  | nil => intro acc n h; exact Or.inl h
  | cons a tl ih =>
    intro acc n h
    rw [List.foldl_cons] at h
    rcases ih (scanStep acc a) n h with h' | ⟨hne, d, hd, hdn⟩
    · rcases scanStep_keys h' with h'' | ⟨hne, hname⟩
      · exact Or.inl h''
      · exact Or.inr ⟨hne, a, by simp, hname⟩
    · exact Or.inr ⟨hne, d, by simp [hd], hdn⟩

theorem scanFold_erase (m : XmlResult) (hbad : get_package_name_from_xml m = none) :
    ∀ (ms : List XmlResult) (acc : List (String × XmlResult)), m ∈ ms →
      ms.foldl scanStep acc = (ms.erase m).foldl scanStep acc := by
  intro ms
  induction ms with
  | nil => intro acc h; simp at h
  | cons a tl ih =>
    intro acc hm
    by_cases ham : a = m
    · subst ham
      rw [List.erase_cons_head]
      rw [List.foldl_cons]
      rw [show scanStep acc a = acc from by unfold scanStep; rw [hbad]]
    · have hmtl : m ∈ tl := by
        rcases List.mem_cons.mp hm with h' | h'
        · exact absurd h'.symm ham
        · exact h'
      rw [List.erase_cons_tail (by simpa using fun h => ham h)]
      rw [List.foldl_cons, List.foldl_cons]
      exact ih (scanStep acc a) hmtl

/-- Claim C5: a manifest whose document is malformed (`ParseError`) or whose
`name` field is absent parses to `None`; such a package is excluded from the
dependency graph entirely — rebuilding the graph without that manifest gives
the identical graph — while every remaining (successfully parsed) package is
still scanned: every key of the graph comes from a manifest whose name
parsed successfully. -/
theorem parse_failure_excluded (ms : List XmlResult) (m : XmlResult)
    (hm : m ∈ ms) (hbad : get_package_name_from_xml m = none) :
    refreshGraph ms = refreshGraph (ms.erase m) ∧
    ∀ n ∈ (refreshGraph ms).keys,
      n ≠ "" ∧ ∃ d ∈ ms, get_package_name_from_xml d = some n := by
  constructor
  · unfold refreshGraph scanPackages
    rw [scanFold_erase m hbad ms [] hm]
  · intro n hn
    rw [refreshGraph, buildGraph_keys, List.map_map] at hn
    have hn' : n ∈ (scanPackages ms).map Prod.fst := by
      have : (Prod.fst ∘ fun e : String × XmlResult => (e.1, get_package_dependencies e.2))
          = Prod.fst := rfl
      rwa [this] at hn
    rcases mem_scanFold_names ms [] n hn' with h' | h'
    · simp at h'
    · exact h'

/-- A concrete scan with one malformed manifest, used as a witness. -/
def msWitness : List XmlResult :=
  [XmlResult.parsed (some (some "foo")) [("depend", some "bar")], XmlResult.parseError]

theorem parse_failure_excluded_witness :
    XmlResult.parseError ∈ msWitness ∧
    get_package_name_from_xml XmlResult.parseError = none ∧
    (refreshGraph msWitness = refreshGraph (msWitness.erase XmlResult.parseError) ∧
      ∀ n ∈ (refreshGraph msWitness).keys,
        n ≠ "" ∧ ∃ d ∈ msWitness, get_package_name_from_xml d = some n) :=
  ⟨by decide, rfl, parse_failure_excluded msWitness XmlResult.parseError (by decide) rfl⟩

/-! ### Dependency closure (`show_dependency_graph`)

    nodes = set()
    stack = list(selected)
    while stack:
        p = stack.pop()
        if p in nodes: continue
        nodes.add(p)
        for d in self.package_dependencies.get(p, set()):
            if d not in nodes: stack.append(d)

`stack.pop()` removes the Python list's last element and `append` pushes at
the end, so the model keeps the top of the stack at the list head: the
initial stack is `seeds.reverse`, and the run of `append`s pushes in
order so that the last dependency pushed is popped first. -/

def closureLoop (g : DepGraph) : Nat → List String → List String → List String
  | 0, _, nodes => nodes
  | _ + 1, [], nodes => nodes
  | fuel + 1, p :: stack, nodes =>
    if p ∈ nodes then closureLoop g fuel stack nodes
    else
      closureLoop g fuel
        ((g.fwd p).foldl (fun st d => if d ∈ p :: nodes then st else d :: st) stack)
        (p :: nodes)

/-- An upper bound on the pushes still possible: the dependency-list sizes
of the packages not yet collected. -/
def budget (g : DepGraph) (nodes : List String) : Nat :=
  (g.keys.map (fun q => if q ∈ nodes then 0 else (g.fwd q).length)).sum

/-- Fuel sufficient for the whole closure loop: every iteration pops one
entry and pushes at most the popped package's remaining dependency budget. -/
def closureFuel (g : DepGraph) (seeds : List String) : Nat :=
  seeds.length + budget g [] + 1

/-- The dependency closure computed by `show_dependency_graph` for the
selected packages. -/
def closure (g : DepGraph) (seeds : List String) : List String :=
  closureLoop g (closureFuel g seeds) seeds.reverse []

theorem budget_cons_key {g : DepGraph} {nodes : List String} {p : String}
    (hnd : g.keys.Nodup) (hk : p ∈ g.keys) (hn : p ∉ nodes) :
    budget g nodes = budget g (p :: nodes) + (g.fwd p).length := by
  unfold budget
  have main : ∀ ks : List String, ks.Nodup → p ∈ ks →
      (ks.map (fun q => if q ∈ nodes then 0 else (g.fwd q).length)).sum =
      (ks.map (fun q => if q ∈ p :: nodes then 0 else (g.fwd q).length)).sum +
        (g.fwd p).length := by
    intro ks
    induction ks with
    | nil => intro _ h; simp at h
    | cons k ks ih =>
      intro hnd' hp
      have hk_nodup := List.nodup_cons.mp hnd'
      by_cases hkp : k = p
      · subst hkp
        have hrest : List.map (fun q => if q ∈ nodes then 0 else (g.fwd q).length) ks =
            List.map (fun q => if q ∈ k :: nodes then 0 else (g.fwd q).length) ks := by
          apply List.map_congr_left
          intro q hq
          have hqk : q ≠ k := fun h => hk_nodup.1 (h ▸ hq)
          by_cases hqn : q ∈ nodes
          · simp [hqn]
          · have : q ∉ k :: nodes := by
              intro h
              rcases List.mem_cons.mp h with h' | h'
              · exact hqk h'
              · exact hqn h'
            simp [hqn, this]
        simp only [List.map_cons, List.sum_cons]
        rw [hrest, if_neg hn, if_pos (List.mem_cons_self k nodes)]
        omega
      · have hp' : p ∈ ks := by
          rcases List.mem_cons.mp hp with h' | h'
          · exact absurd h'.symm hkp
          · exact h'
        have hhd : (if k ∈ nodes then 0 else (g.fwd k).length) =
            (if k ∈ p :: nodes then 0 else (g.fwd k).length) := by
          by_cases hkn : k ∈ nodes
          · simp [hkn]
          · have : k ∉ p :: nodes := by
              intro h
              rcases List.mem_cons.mp h with h' | h'
              · exact hkp h'
              · exact hkn h'
            simp [hkn, this]
        simp only [List.map_cons, List.sum_cons]
        rw [hhd, ih hk_nodup.2 hp']
        omega
  exact main g.keys hnd hk

theorem budget_cons_not_key {g : DepGraph} (nodes : List String) {p : String}
    (hk : p ∉ g.keys) : budget g (p :: nodes) = budget g nodes := by
  unfold budget
  apply congrArg
  apply List.map_congr_left
  intro q hq
  have hqp : q ≠ p := fun h => hk (h ▸ hq)
  by_cases hqn : q ∈ nodes
  · simp [hqn]
  · have : q ∉ p :: nodes := by
      intro h
      rcases List.mem_cons.mp h with h' | h'
      · exact hqp h'
      · exact hqn h'
    simp [hqn, this]

theorem pushFold_mem_of_mem_stack {block : List String} {x : String}
    (ds : List String) :
    ∀ stack : List String, x ∈ stack →
      x ∈ ds.foldl (fun st d => if d ∈ block then st else d :: st) stack := by
  induction ds with
  | nil => intro stack h; exact h
  | cons d ds ih =>
    intro stack h
    rw [List.foldl_cons]
    apply ih
    by_cases hd : d ∈ block <;> simp [hd, h]

theorem pushFold_covers {block : List String} (ds : List String) :
    ∀ stack : List String, ∀ d ∈ ds,
      d ∈ ds.foldl (fun st d => if d ∈ block then st else d :: st) stack ∨ d ∈ block := by
  induction ds with
  | nil => intro stack d h; simp at h
  | cons d0 ds ih =>
    intro stack d hd
    rw [List.foldl_cons]
    rcases List.mem_cons.mp hd with rfl | h'
    · by_cases hb : d ∈ block
      · exact Or.inr hb
      · left
        apply pushFold_mem_of_mem_stack ds
        simp [hb]
    · exact ih _ d h'

theorem pushFold_sub {block : List String} {x : String} (ds : List String) :
    ∀ stack : List String,
      x ∈ ds.foldl (fun st d => if d ∈ block then st else d :: st) stack →
      x ∈ stack ∨ x ∈ ds := by
  induction ds with
  | nil => intro stack h; exact Or.inl h
  | cons d ds ih =>
    intro stack h
    rw [List.foldl_cons] at h
    rcases ih _ h with h' | h'
    · by_cases hd : d ∈ block
      · rw [if_pos hd] at h'
        exact Or.inl h'
      · rw [if_neg hd] at h'
        rcases List.mem_cons.mp h' with rfl | h''
        · exact Or.inr (by simp)
        · exact Or.inl h''
    · exact Or.inr (by simp [h'])

theorem pushFold_length {block : List String} (ds : List String) :
    ∀ stack : List String,
      (ds.foldl (fun st d => if d ∈ block then st else d :: st) stack).length ≤
        stack.length + ds.length := by
  induction ds with
  | nil => intro stack; simp
  | cons d ds ih =>
    intro stack
    rw [List.foldl_cons]
    calc (ds.foldl _ (if d ∈ block then stack else d :: stack)).length
        ≤ (if d ∈ block then stack else d :: stack).length + ds.length := ih _
      _ ≤ stack.length + (d :: ds).length := by
          by_cases hd : d ∈ block <;> simp [hd] <;> omega

/-- The invariant of the closure loop: dependencies of already-collected
packages are either collected or still on the stack. -/
def ClosureInv (g : DepGraph) (stack nodes : List String) : Prop :=
  ∀ p ∈ nodes, ∀ d ∈ g.fwd p, d ∈ nodes ∨ d ∈ stack

theorem closureLoop_spec (g : DepGraph) (hnd : g.keys.Nodup) :
    ∀ (fuel : Nat) (stack nodes : List String),
      stack.length + budget g nodes < fuel → ClosureInv g stack nodes →
      (∀ x ∈ nodes, x ∈ closureLoop g fuel stack nodes) ∧
      (∀ x ∈ stack, x ∈ closureLoop g fuel stack nodes) ∧
      (∀ p ∈ closureLoop g fuel stack nodes, ∀ d ∈ g.fwd p,
        d ∈ closureLoop g fuel stack nodes) ∧
      (∀ x ∈ closureLoop g fuel stack nodes, x ∈ nodes ∨ ∃ s ∈ stack, Reaches g s x) := by
  intro fuel
  induction fuel with
  | zero => intro stack nodes h; exact absurd h (Nat.not_lt_zero _)
  | succ f ih =>
    intro stack nodes hfu hinv
    match stack with
    | [] =>
      refine ⟨fun x hx => hx, by simp, ?_, fun x hx => Or.inl hx⟩
      intro p hp d hd
      rcases hinv p hp d hd with h' | h'
      · exact h'
      · simp at h'
    | p :: rest =>
      by_cases hp : p ∈ nodes
      · rw [show closureLoop g (f + 1) (p :: rest) nodes = closureLoop g f rest nodes
          from by rw [closureLoop, if_pos hp]]
        have hfu' : rest.length + budget g nodes < f := by
          simp only [List.length_cons] at hfu; omega
        have hinv' : ClosureInv g rest nodes := by
          intro q hq d hd
          rcases hinv q hq d hd with h' | h'
          · exact Or.inl h'
          · rcases List.mem_cons.mp h' with rfl | h''
            · exact Or.inl hp
            · exact Or.inr h''
        obtain ⟨c1, c2, c3, c4⟩ := ih rest nodes hfu' hinv'
        refine ⟨c1, ?_, c3, ?_⟩
        · intro x hx
          rcases List.mem_cons.mp hx with rfl | h'
          · exact c1 x hp
          · exact c2 x h'
        · intro x hx
          rcases c4 x hx with h' | ⟨s, hs, hr⟩
          · exact Or.inl h'
          · exact Or.inr ⟨s, by simp [hs], hr⟩
      · set stack' := (g.fwd p).foldl (fun st d => if d ∈ p :: nodes then st else d :: st)
          rest with hstack'
        rw [show closureLoop g (f + 1) (p :: rest) nodes = closureLoop g f stack' (p :: nodes)
          from by rw [closureLoop, if_neg hp]]
        have hlen : stack'.length ≤ rest.length + (g.fwd p).length :=
          pushFold_length (g.fwd p) rest
        have hfu' : stack'.length + budget g (p :: nodes) < f := by
          by_cases hk : p ∈ g.keys
          · have hb := budget_cons_key hnd hk hp
            simp only [List.length_cons] at hfu
            rw [hb] at hfu
            omega
          · have hb := budget_cons_not_key nodes hk
            have hfwd : g.fwd p = [] := g.fwd_eq_nil_of_not_mem hk
            have hsr : stack' = rest := by rw [hstack', hfwd]; rfl
            have hdl : stack'.length = rest.length := by rw [hsr]
            simp only [List.length_cons] at hfu
            omega
        have hinv' : ClosureInv g stack' (p :: nodes) := by
          intro q hq d hd
          rcases List.mem_cons.mp hq with rfl | hq'
          · rcases pushFold_covers (g.fwd q) rest d hd with h' | h'
            · exact Or.inr h'
            · exact Or.inl h'
          · rcases hinv q hq' d hd with h' | h'
            · exact Or.inl (by simp [h'])
            · rcases List.mem_cons.mp h' with rfl | h''
              · exact Or.inl (by simp)
              · exact Or.inr (pushFold_mem_of_mem_stack (g.fwd p) rest h'')
        obtain ⟨c1, c2, c3, c4⟩ := ih stack' (p :: nodes) hfu' hinv'
        refine ⟨?_, ?_, c3, ?_⟩
        · intro x hx
          exact c1 x (by simp [hx])
        · intro x hx
          rcases List.mem_cons.mp hx with rfl | h'
          · exact c1 x (by simp)
          · exact c2 x (pushFold_mem_of_mem_stack (g.fwd p) rest h')
        · intro x hx
          rcases c4 x hx with h' | ⟨s, hs, hr⟩
          · rcases List.mem_cons.mp h' with rfl | h''
            · exact Or.inr ⟨x, by simp, Reaches.refl x⟩
            · exact Or.inl h''
          · rcases pushFold_sub (g.fwd p) rest hs with h' | h'
            · exact Or.inr ⟨s, by simp [h'], hr⟩
            · exact Or.inr ⟨p, by simp, Reaches.step h' hr⟩

theorem Reaches.trans {g : DepGraph} {a b c : String}
    (hab : Reaches g a b) (hbc : Reaches g b c) : Reaches g a c := by
  induction hab with
  | refl => exact hbc
  | step hq _ ih => exact Reaches.step hq (ih hbc)

theorem mem_closure_iff (g : DepGraph) (hnd : g.keys.Nodup) (seeds : List String)
    (x : String) : x ∈ closure g seeds ↔ ∃ s ∈ seeds, Reaches g s x := by
  have hfu : (seeds.reverse).length + budget g [] < closureFuel g seeds := by
    rw [List.length_reverse]
    unfold closureFuel
    omega
  have hinv : ClosureInv g seeds.reverse [] := by
    intro p hp
    simp at hp
  obtain ⟨c1, c2, c3, c4⟩ := closureLoop_spec g hnd (closureFuel g seeds) seeds.reverse [] hfu hinv
  constructor
  · intro hx
    rcases c4 x hx with h' | ⟨s, hs, hr⟩
    · simp at h'
    · exact ⟨s, List.mem_reverse.mp hs, hr⟩
  · rintro ⟨s, hs, hr⟩
    have hsC : s ∈ closure g seeds := c2 s (List.mem_reverse.mpr hs)
    clear hs
    induction hr with
    | refl => exact hsC
    | step hq _ ih => exact ih (c3 _ hsC _ hq)

theorem closureLoop_fuel_stable (g : DepGraph) (hnd : g.keys.Nodup) :
    ∀ (fuel : Nat) (stack nodes : List String),
      stack.length + budget g nodes < fuel →
      closureLoop g (fuel + 1) stack nodes = closureLoop g fuel stack nodes := by
  intro fuel
  induction fuel with
  | zero => intro stack nodes h; exact absurd h (Nat.not_lt_zero _)
  | succ f ih =>
    intro stack nodes hfu
    match stack with
    | [] => rfl
    | p :: rest =>
      by_cases hp : p ∈ nodes
      · rw [show closureLoop g (f + 1 + 1) (p :: rest) nodes
            = closureLoop g (f + 1) rest nodes from by rw [closureLoop, if_pos hp]]
        rw [show closureLoop g (f + 1) (p :: rest) nodes
            = closureLoop g f rest nodes from by rw [closureLoop, if_pos hp]]
        apply ih
        simp only [List.length_cons] at hfu
        omega
      · set stack' := (g.fwd p).foldl (fun st d => if d ∈ p :: nodes then st else d :: st)
          rest with hstack'
        rw [show closureLoop g (f + 1 + 1) (p :: rest) nodes
            = closureLoop g (f + 1) stack' (p :: nodes) from by rw [closureLoop, if_neg hp]]
        rw [show closureLoop g (f + 1) (p :: rest) nodes
            = closureLoop g f stack' (p :: nodes) from by rw [closureLoop, if_neg hp]]
        apply ih
        have hlen : stack'.length ≤ rest.length + (g.fwd p).length :=
          pushFold_length (g.fwd p) rest
        by_cases hk : p ∈ g.keys
        · have hb := budget_cons_key hnd hk hp
          simp only [List.length_cons] at hfu
          rw [hb] at hfu
          omega
        · have hb := budget_cons_not_key nodes hk
          have hfwd : g.fwd p = [] := g.fwd_eq_nil_of_not_mem hk
          have hsr : stack' = rest := by rw [hstack', hfwd]; rfl
          have hdl : stack'.length = rest.length := by rw [hsr]
          simp only [List.length_cons] at hfu
          omega

/-- Claim C7: `closure(seeds)` always contains its seeds; `closure` is
idempotent up to set membership (the Python result is a `set`); and the
computation terminates even on cyclic graphs — each package enters `nodes`
at most once, so `closureFuel` iterations always reach the empty stack, and
any additional fuel leaves the result unchanged. -/
theorem closure_seeds_idempotent (g : DepGraph) (hnd : g.keys.Nodup)
    (seeds : List String) :
    (∀ s ∈ seeds, s ∈ closure g seeds) ∧
    (∀ x, x ∈ closure g (closure g seeds) ↔ x ∈ closure g seeds) ∧
    (∀ extra : Nat,
      closureLoop g (closureFuel g seeds + extra) seeds.reverse [] = closure g seeds) := by
  have hseeds : ∀ s ∈ seeds, s ∈ closure g seeds := by
    intro s hs
    exact (mem_closure_iff g hnd seeds s).mpr ⟨s, hs, Reaches.refl s⟩
  refine ⟨hseeds, ?_, ?_⟩
  · intro x
    rw [mem_closure_iff g hnd _ x, mem_closure_iff g hnd seeds x]
    constructor
    · rintro ⟨y, hy, hyx⟩
      obtain ⟨s, hs, hsy⟩ := (mem_closure_iff g hnd seeds y).mp hy
      exact ⟨s, hs, hsy.trans hyx⟩
    · rintro ⟨s, hs, hsx⟩
      exact ⟨s, hseeds s hs, hsx⟩
  · intro extra
    induction extra with
    | zero => rfl
    | succ e ihe =>
      rw [show closureFuel g seeds + (e + 1) = (closureFuel g seeds + e) + 1 from rfl]
      rw [closureLoop_fuel_stable g hnd (closureFuel g seeds + e) seeds.reverse []
        (by rw [List.length_reverse]; unfold closureFuel; omega)]
      exact ihe

theorem closure_seeds_idempotent_witness :
    gABC.keys.Nodup ∧
    ((∀ s ∈ ["A"], s ∈ closure gABC ["A"]) ∧
      (∀ x, x ∈ closure gABC (closure gABC ["A"]) ↔ x ∈ closure gABC ["A"]) ∧
      (∀ extra : Nat,
        closureLoop gABC (closureFuel gABC ["A"] + extra) (["A"] : List String).reverse []
          = closure gABC ["A"])) :=
  ⟨by decide, closure_seeds_idempotent gABC (by decide) ["A"]⟩

/-! ### Checkbox signal semantics (`on_package_checkbox_changed`)

`refresh_packages` connects every checkbox's `stateChanged` signal to
`on_package_checkbox_changed`.  Qt emits `stateChanged` whenever
`setChecked` actually changes the stored state — programmatic calls
included; the code installs no re-entrancy guard.  This model makes the
signal explicit: `qtSetChecked` fires the handler exactly when the state
changes, and the handler starts a fresh top-level propagation
(`select_dependencies` / `deselect_dependent_packages` with a new `visited`
set), counting every such top-level propagation call in `calls`. -/

structure QtSt where
  checked : List String
  calls : Nat
deriving DecidableEq

mutual
/-- Model of `checkbox.setChecked(b)` with Qt signal semantics: on an actual state
change the `stateChanged` handler runs synchronously. -/
def qtSetChecked (g : DepGraph) : Nat → String → Bool → QtSt → QtSt
  | 0, _, _, st => st
  | fuel + 1, p, b, st =>
    if (decide (p ∈ st.checked)) = b then st
    else
      qtHandler g fuel p
        { st with checked := if b then p :: st.checked
                             else st.checked.filter (fun q => q != p) }

/-- Model of `on_package_checkbox_changed`: reads the checkbox's current state and
starts one top-level propagation (counted in `calls`). -/
def qtHandler (g : DepGraph) : Nat → String → QtSt → QtSt
  | 0, _, st => st
  | fuel + 1, p, st =>
    if p ∈ st.checked then
      (qtSelect g fuel p { st with calls := st.calls + 1 } []).1
    else
      (qtDeselect g fuel p { st with calls := st.calls + 1 } []).1

/-- Model of `select_dependencies` under signal semantics: the `setChecked(True)` on
each visited package may itself fire the handler. -/
def qtSelect (g : DepGraph) : Nat → String → QtSt → List String → QtSt × List String
  | 0, _, st, vis => (st, vis)
  | fuel + 1, p, st, vis =>
    if p ∈ vis then (st, vis)
    else
      let st1 := if p ∈ g.keys then qtSetChecked g fuel p true st else st
      (g.fwd p).foldl (fun acc d => qtSelect g fuel d acc.1 acc.2) (st1, p :: vis)

/-- Model of `deselect_dependent_packages` under signal semantics. -/
def qtDeselect (g : DepGraph) : Nat → String → QtSt → List String → QtSt × List String
  | 0, _, st, vis => (st, vis)
  | fuel + 1, p, st, vis =>
    if p ∈ vis then (st, vis)
    else
      (g.rev p).foldl
        (fun acc d =>
          if d ∈ g.keys then
            qtDeselect g fuel d (qtSetChecked g fuel d false acc.1) acc.2
          else acc)
        (st, p :: vis)
end

/-- Fuel amply covering the nesting of handler re-entries for one toggle. -/
def qtFuel (g : DepGraph) : Nat := (g.keys.length + 3) * (g.keys.length + 3)

/-- One user click on checkbox `p`: Qt stores the new state and emits
`stateChanged`, i.e. exactly a `setChecked` from the outside. -/
def userToggle (g : DepGraph) (p : String) (b : Bool) (checked : List String) : QtSt :=
  qtSetChecked g (qtFuel g) p b { checked := checked, calls := 0 }

/-- Claim C4 counterexample: in the two-package graph `A → B`, a single
user toggle checking `A` produces two top-level propagation calls, not one:
the propagation's programmatic `setChecked(True)` on `B` fires the
`stateChanged` handler again, which starts a second `select_dependencies`
chain (the code has no re-entrancy guard). -/
theorem single_toggle_single_call_refuted :
    (userToggle gAB "A" true []).calls = 2 ∧ ¬ (userToggle gAB "A" true []).calls = 1 := by
  decide

theorem foldl_nat_mono {α β : Type} (m : α → Nat) (f : α → β → α)
    (h : ∀ a b, m a ≤ m (f a b)) : ∀ (l : List β) (a : α), m a ≤ m (l.foldl f a) := by
  intro l
  induction l with
  | nil => intro a; exact le_rfl
  | cons b l ih =>
    intro a
    rw [List.foldl_cons]
    exact le_trans (h a b) (ih (f a b))

theorem qt_calls_monotone (g : DepGraph) :
    ∀ fuel : Nat,
      (∀ p b st, st.calls ≤ (qtSetChecked g fuel p b st).calls) ∧
      (∀ p st, st.calls ≤ (qtHandler g fuel p st).calls) ∧
      (∀ p st vis, st.calls ≤ (qtSelect g fuel p st vis).1.calls) ∧
      (∀ p st vis, st.calls ≤ (qtDeselect g fuel p st vis).1.calls) := by
  intro fuel
  induction fuel with
  | zero =>
    exact ⟨fun _ _ _ => le_rfl, fun _ _ => le_rfl, fun _ _ _ => le_rfl,
      fun _ _ _ => le_rfl⟩
  | succ f ih =>
    obtain ⟨ihSet, ihH, ihSel, ihDes⟩ := ih
    refine ⟨?_, ?_, ?_, ?_⟩
    · intro p b st
      simp only [qtSetChecked]
      by_cases h : (decide (p ∈ st.checked)) = b
      · rw [if_pos h]
      · rw [if_neg h]
        exact ihH p { st with checked := if b then p :: st.checked
                              else st.checked.filter (fun q => q != p) }
    · intro p st
      simp only [qtHandler]
      by_cases h : p ∈ st.checked
      · rw [if_pos h]
        exact le_trans (Nat.le_succ _) (ihSel p { st with calls := st.calls + 1 } [])
      · rw [if_neg h]
        exact le_trans (Nat.le_succ _) (ihDes p { st with calls := st.calls + 1 } [])
    · intro p st vis
      simp only [qtSelect]
      by_cases h : p ∈ vis
      · rw [if_pos h]
      · rw [if_neg h]
        have h1 : st.calls ≤ (if p ∈ g.keys then qtSetChecked g f p true st else st).calls := by
          by_cases hk : p ∈ g.keys
          · rw [if_pos hk]; exact ihSet p true st
          · rw [if_neg hk]
        refine le_trans h1 ?_
        exact foldl_nat_mono (fun a : QtSt × List String => a.1.calls)
          (fun acc d => qtSelect g f d acc.1 acc.2)
          (fun a d => ihSel d a.1 a.2) (g.fwd p)
          ((if p ∈ g.keys then qtSetChecked g f p true st else st), p :: vis)
    · intro p st vis
      simp only [qtDeselect]
      by_cases h : p ∈ vis
      · rw [if_pos h]
      · rw [if_neg h]
        exact foldl_nat_mono (fun a : QtSt × List String => a.1.calls)
          (fun acc d => if d ∈ g.keys then
            qtDeselect g f d (qtSetChecked g f d false acc.1) acc.2 else acc)
          (fun a d => by
            dsimp only
            by_cases hk : d ∈ g.keys
            · rw [if_pos hk]
              exact le_trans (ihSet d false a.1) (ihDes d _ a.2)
            · rw [if_neg hk])
          (g.rev p) (st, p :: vis)

/-- Claim C4 (amended): a user toggle of one checkbox does start one
propagation, but the programmatic `setChecked` calls made while a
propagation is in progress are not suppressed — every `setChecked` that
actually changes a package's state fires the `stateChanged` handler and
starts an additional top-level propagation chain, so the per-toggle count
of top-level propagation calls is not one but one per changed state. -/
theorem programmatic_setChecked_starts_chain (g : DepGraph) (fuel : Nat) (p : String)
    (b : Bool) (st : QtSt) (hchange : ¬ (decide (p ∈ st.checked)) = b) (hfuel : 2 ≤ fuel) :
    st.calls + 1 ≤ (qtSetChecked g fuel p b st).calls := by
  obtain ⟨f, rfl⟩ : ∃ f, fuel = f + 2 := ⟨fuel - 2, by omega⟩
  simp only [qtSetChecked, if_neg hchange]
  set st' : QtSt := { st with checked := if b then p :: st.checked
                              else st.checked.filter (fun q => q != p) } with hst'
  simp only [qtHandler]
  by_cases h : p ∈ st'.checked
  · rw [if_pos h]
    have hmono := (qt_calls_monotone g f).2.2.1 p { st' with calls := st'.calls + 1 } []
    exact hmono
  · rw [if_neg h]
    have hmono := (qt_calls_monotone g f).2.2.2 p { st' with calls := st'.calls + 1 } []
    exact hmono

theorem programmatic_setChecked_starts_chain_witness :
    (¬ (decide (("A" : String) ∈ (QtSt.mk [] 0).checked)) = true) ∧ 2 ≤ 25 ∧
      (QtSt.mk [] 0).calls + 1 ≤ (qtSetChecked gAB 25 "A" true (QtSt.mk [] 0)).calls :=
  ⟨by decide, by decide,
    programmatic_setChecked_starts_chain gAB 25 "A" true (QtSt.mk [] 0)
      (by decide) (by decide)⟩

/-! ### Correctness of the topological layering -/

/-- No directed cycle. -/
def Acyclic (edges : List (String × String)) : Prop :=
  ∀ (v : String) (l : List String), ¬ CycleAt edges v l

theorem depsMapOf_nodup (nodes : List String) (edges : List (String × String))
    (n : String) : (depsMapOf nodes edges n).Nodup := by
  unfold depsMapOf
  by_cases h : n ∈ nodes
  · rw [if_pos h]; exact List.nodup_dedup _
  · rw [if_neg h]; exact List.nodup_nil

theorem mem_depsMapOf {nodes : List String} {edges : List (String × String)}
    {s d : String} : d ∈ depsMapOf nodes edges s ↔ s ∈ nodes ∧ (s, d) ∈ edges := by
  unfold depsMapOf
  by_cases h : s ∈ nodes
  · rw [if_pos h]
    simp only [List.mem_dedup, List.mem_map, List.mem_filter]
    constructor
    · rintro ⟨e, ⟨he, heq⟩, rfl⟩
      have : e.1 = s := by simpa using heq
      exact ⟨h, by rw [← this]; exact he⟩
    · rintro ⟨_, he⟩
      exact ⟨(s, d), ⟨he, by simp⟩, rfl⟩
  · rw [if_neg h]
    simp [h]

theorem mem_nodes_of_mem_depsMapOf {nodes : List String} {edges : List (String × String)}
    (hE : ∀ e ∈ edges, e.1 ∈ nodes ∧ e.2 ∈ nodes) {s d : String}
    (h : d ∈ depsMapOf nodes edges s) : d ∈ nodes :=
  (hE _ (mem_depsMapOf.mp h).2).2

/-- The number of in-neighbours of `v` (inside the induced subgraph) that
have not been processed yet; the loop's `indeg[v]` always equals it. -/
def inCount (nodes : List String) (edges : List (String × String)) (seen : List String)
    (v : String) : Nat :=
  (nodes.filter (fun s => decide (v ∈ depsMapOf nodes edges s) && decide (s ∉ seen))).length

theorem indeg0_eq_inCount (nodes : List String) (edges : List (String × String))
    (v : String) : indeg0 nodes edges v = (inCount nodes edges [] v : Int) := by
  unfold indeg0 inCount
  congr 2
  apply List.filter_congr
  intro s _
  simp

theorem inCount_le_of_subset {nodes : List String} {edges : List (String × String)}
    {seen seen' : List String} (h : ∀ x ∈ seen, x ∈ seen') (v : String) :
    inCount nodes edges seen' v ≤ inCount nodes edges seen v := by
  unfold inCount
  apply List.Sublist.length_le
  apply List.monotone_filter_right
  intro s hs
  simp only [Bool.and_eq_true, decide_eq_true_eq] at hs ⊢
  exact ⟨hs.1, fun hmem => hs.2 (h s hmem)⟩

theorem inCount_congr {nodes : List String} {edges : List (String × String)}
    {seen seen' : List String} (h : ∀ x, x ∈ seen ↔ x ∈ seen') (v : String) :
    inCount nodes edges seen v = inCount nodes edges seen' v := by
  unfold inCount
  congr 1
  apply List.filter_congr
  intro s _
  simp only [Bool.and_eq_true, decide_eq_true_eq, h s]

theorem inCount_pos {nodes : List String} {edges : List (String × String)}
    {seen : List String} {u v : String} (hu : u ∈ nodes) (huseen : u ∉ seen)
    (hdm : v ∈ depsMapOf nodes edges u) : 0 < inCount nodes edges seen v := by
  unfold inCount
  apply List.length_pos.mpr
  intro hnil
  have := List.filter_eq_nil.mp hnil u hu
  simp only [Bool.and_eq_true, decide_eq_true_eq] at this
  exact this ⟨hdm, huseen⟩

theorem inCount_zero_mem {nodes : List String} {edges : List (String × String)}
    {seen : List String} {v : String} (h : inCount nodes edges seen v = 0) :
    ∀ s ∈ nodes, v ∈ depsMapOf nodes edges s → s ∈ seen := by
  intro s hs hdm
  by_contra hseen
  have := inCount_pos hs hseen hdm
  omega

theorem inCount_ne_zero_exists {nodes : List String} {edges : List (String × String)}
    {seen : List String} {v : String} (h : inCount nodes edges seen v ≠ 0) :
    ∃ s, s ∈ nodes ∧ s ∉ seen ∧ v ∈ depsMapOf nodes edges s := by
  unfold inCount at h
  have hne : nodes.filter
      (fun s => decide (v ∈ depsMapOf nodes edges s) && decide (s ∉ seen)) ≠ [] := by
    intro hnil; rw [hnil] at h; exact h rfl
  obtain ⟨s, hs⟩ := List.exists_mem_of_ne_nil _ hne
  have hs2 := List.mem_filter.mp hs
  simp only [Bool.and_eq_true, decide_eq_true_eq] at hs2
  exact ⟨s, hs2.1, hs2.2.2, hs2.2.1⟩

theorem inCount_append_mem {nodes : List String} {edges : List (String × String)}
    {seen : List String} {u : String} (hnd : nodes.Nodup) (hu : u ∈ nodes)
    (huseen : u ∉ seen) {v : String} (hdm : v ∈ depsMapOf nodes edges u) :
    inCount nodes edges seen v = inCount nodes edges (seen ++ [u]) v + 1 := by
  unfold inCount
  have main : ∀ ks : List String, ks.Nodup → u ∈ ks →
      (ks.filter (fun s => decide (v ∈ depsMapOf nodes edges s) && decide (s ∉ seen))).length
        = (ks.filter (fun s => decide (v ∈ depsMapOf nodes edges s) &&
            decide (s ∉ seen ++ [u]))).length + 1 := by
    intro ks
    induction ks with
    | nil => intro _ h; simp at h
    | cons k ks ih =>
      intro hnd' hk
      have hkn := List.nodup_cons.mp hnd'
      by_cases hku : k = u
      · subst hku
        have htail : ks.filter (fun s => decide (v ∈ depsMapOf nodes edges s) &&
              decide (s ∉ seen)) =
            ks.filter (fun s => decide (v ∈ depsMapOf nodes edges s) &&
              decide (s ∉ seen ++ [k])) := by
          apply List.filter_congr
          intro s hsk
          have hsu : s ≠ k := fun h => hkn.1 (h ▸ hsk)
          simp only [List.mem_append, List.mem_singleton]
          by_cases h1 : v ∈ depsMapOf nodes edges s <;>
            by_cases h2 : s ∈ seen <;> simp [h1, h2, hsu]
        rw [List.filter_cons_of_pos (by simp [hdm, huseen]),
          List.filter_cons_of_neg (by simp)]
        rw [htail]
        simp
      · have hu' : u ∈ ks := by
          rcases List.mem_cons.mp hk with h' | h'
          · exact absurd h'.symm hku
          · exact h'
        have hhd : (decide (v ∈ depsMapOf nodes edges k) && decide (k ∉ seen ++ [u]))
            = (decide (v ∈ depsMapOf nodes edges k) && decide (k ∉ seen)) := by
          by_cases h1 : v ∈ depsMapOf nodes edges k <;>
            by_cases h2 : k ∈ seen <;> simp [h1, h2, hku]
        by_cases hcond : (decide (v ∈ depsMapOf nodes edges k) && decide (k ∉ seen)) = true
        · rw [List.filter_cons_of_pos
              (p := fun s => decide (v ∈ depsMapOf nodes edges s) && decide (s ∉ seen)) hcond,
            List.filter_cons_of_pos
              (p := fun s => decide (v ∈ depsMapOf nodes edges s) && decide (s ∉ seen ++ [u]))
              (by change (decide (v ∈ depsMapOf nodes edges k) &&
                  decide (k ∉ seen ++ [u])) = true
                  rw [hhd]; exact hcond)]
          simp only [List.length_cons]
          rw [ih hkn.2 hu']
        · rw [List.filter_cons_of_neg
              (p := fun s => decide (v ∈ depsMapOf nodes edges s) && decide (s ∉ seen)) hcond,
            List.filter_cons_of_neg
              (p := fun s => decide (v ∈ depsMapOf nodes edges s) && decide (s ∉ seen ++ [u]))
              (by intro hc
                  have hc' : (decide (v ∈ depsMapOf nodes edges k) &&
                    decide (k ∉ seen ++ [u])) = true := hc
                  rw [hhd] at hc'
                  exact hcond hc')]
          exact ih hkn.2 hu'
  exact main nodes hnd hu

theorem inCount_append_not_mem {nodes : List String} {edges : List (String × String)}
    {seen : List String} {u : String} {v : String}
    (hdm : v ∉ depsMapOf nodes edges u) :
    inCount nodes edges (seen ++ [u]) v = inCount nodes edges seen v := by
  unfold inCount
  congr 1
  apply List.filter_congr
  intro s _
  by_cases h1 : v ∈ depsMapOf nodes edges s
  · have hsu : s ≠ u := fun h => hdm (h ▸ h1)
    simp only [List.mem_append, List.mem_singleton]
    by_cases h2 : s ∈ seen <;> simp [h1, h2, hsu]
  · simp [h1]

/-- The body of `processNode`'s inner loop, named for the proofs. -/
def decStep (st : (String → Int) × List String) (v : String) :
    (String → Int) × List String :=
  let ind : String → Int := fun x => if x = v then st.1 x - 1 else st.1 x
  if ind v = 0 then (ind, st.2 ++ [v]) else (ind, st.2)

theorem processNode_eq (dm : String → List String) (u : String)
    (st : (String → Int) × List String) :
    processNode dm u st = (dm u).foldl decStep st := rfl

theorem decFold_spec (vs : List String) :
    ∀ (ind : String → Int) (nxt : List String), vs.Nodup → nxt.Nodup →
      (∀ v ∈ vs, v ∉ nxt) →
      (∀ x, (vs.foldl decStep (ind, nxt)).1 x = if x ∈ vs then ind x - 1 else ind x) ∧
      (vs.foldl decStep (ind, nxt)).2.Nodup ∧
      (∀ x, x ∈ (vs.foldl decStep (ind, nxt)).2 ↔
        x ∈ nxt ∨ (x ∈ vs ∧ ind x = 1)) := by
  induction vs with
  | nil =>
    intro ind nxt _ hnxt_nd _
    exact ⟨fun x => by simp, hnxt_nd, fun x => by simp⟩
  | cons v0 vs ih =>
    intro ind nxt hnd hnxt_nd hdisj
    have hv0vs : v0 ∉ vs := (List.nodup_cons.mp hnd).1
    have hv0nxt : v0 ∉ nxt := hdisj v0 (by simp)
    have hstep : decStep (ind, nxt) v0 =
        ((fun x => if x = v0 then ind x - 1 else ind x : String → Int),
         if ind v0 - 1 = 0 then nxt ++ [v0] else nxt) := by
      unfold decStep
      by_cases h : ind v0 - 1 = 0 <;> simp [h]
    rw [List.foldl_cons, hstep]
    have hnxt1_nd : (if ind v0 - 1 = 0 then nxt ++ [v0] else nxt).Nodup := by
      by_cases h : ind v0 - 1 = 0
      · rw [if_pos h]
        rw [List.nodup_append]
        exact ⟨hnxt_nd, List.nodup_singleton v0, by simpa using hv0nxt⟩
      · rw [if_neg h]; exact hnxt_nd
    have hdisj1 : ∀ v ∈ vs, v ∉ (if ind v0 - 1 = 0 then nxt ++ [v0] else nxt) := by
      intro v hv
      have hvnxt : v ∉ nxt := hdisj v (by simp [hv])
      have hvv0 : v ≠ v0 := fun h => hv0vs (h ▸ hv)
      by_cases h : ind v0 - 1 = 0
      · rw [if_pos h]
        simp [hvnxt, hvv0]
      · rw [if_neg h]; exact hvnxt
    obtain ⟨hf1, hf2, hf3⟩ := ih (fun x => if x = v0 then ind x - 1 else ind x)
      (if ind v0 - 1 = 0 then nxt ++ [v0] else nxt)
      (List.nodup_cons.mp hnd).2 hnxt1_nd hdisj1
    refine ⟨?_, hf2, ?_⟩
    · intro x
      rw [hf1 x]
      by_cases hx0 : x = v0
      · subst hx0
        rw [if_neg (fun h => hv0vs h), if_pos rfl, if_pos (by simp)]
      · by_cases hxvs : x ∈ vs
        · rw [if_pos hxvs, if_neg hx0, if_pos (by simp [hxvs])]
        · rw [if_neg hxvs, if_neg hx0,
            if_neg (by intro h; rcases List.mem_cons.mp h with h' | h' <;>
              [exact hx0 h'; exact hxvs h'])]
    · intro x
      rw [hf3 x]
      have hmem1 : x ∈ (if ind v0 - 1 = 0 then nxt ++ [v0] else nxt) ↔
          x ∈ nxt ∨ (x = v0 ∧ ind v0 = 1) := by
        by_cases h : ind v0 - 1 = 0
        · rw [if_pos h]
          simp only [List.mem_append, List.mem_singleton]
          constructor
          · rintro (hx | rfl)
            · exact Or.inl hx
            · exact Or.inr ⟨rfl, by omega⟩
          · rintro (hx | ⟨rfl, _⟩)
            · exact Or.inl hx
            · exact Or.inr rfl
        · rw [if_neg h]
          constructor
          · exact Or.inl
          · rintro (hx | ⟨rfl, h1⟩)
            · exact hx
            · exact absurd (by omega : ind x - 1 = 0) h
      rw [hmem1]
      constructor
      · rintro ((hx | ⟨rfl, h1⟩) | ⟨hxvs, h1⟩)
        · exact Or.inl hx
        · exact Or.inr ⟨by simp, h1⟩
        · have hxv0 : x ≠ v0 := fun h => hv0vs (h ▸ hxvs)
          rw [if_neg hxv0] at h1
          exact Or.inr ⟨by simp [hxvs], h1⟩
      · rintro (hx | ⟨hxmem, h1⟩)
        · exact Or.inl (Or.inl hx)
        · rcases List.mem_cons.mp hxmem with rfl | hxvs
          · exact Or.inl (Or.inr ⟨rfl, h1⟩)
          · have hxv0 : x ≠ v0 := fun h => hv0vs (h ▸ hxvs)
            exact Or.inr ⟨hxvs, by rw [if_neg hxv0]; exact h1⟩

theorem processNode_spec (nodes : List String) (edges : List (String × String))
    (hnd : nodes.Nodup) (seen0 seenD : List String) {u : String}
    (ind : String → Int) (nxt : List String)
    (hu : u ∈ nodes) (husD : u ∉ seenD) (hsub : ∀ x ∈ seen0, x ∈ seenD)
    (hind : ∀ v, ind v = (inCount nodes edges seenD v : Int))
    (hnxt_nd : nxt.Nodup)
    (hnxt : ∀ v, v ∈ nxt ↔ ind v = 0 ∧ inCount nodes edges seen0 v ≠ 0) :
    (∀ v, (processNode (depsMapOf nodes edges) u (ind, nxt)).1 v =
      (inCount nodes edges (seenD ++ [u]) v : Int)) ∧
    (processNode (depsMapOf nodes edges) u (ind, nxt)).2.Nodup ∧
    (∀ v, v ∈ (processNode (depsMapOf nodes edges) u (ind, nxt)).2 ↔
      (processNode (depsMapOf nodes edges) u (ind, nxt)).1 v = 0 ∧
        inCount nodes edges seen0 v ≠ 0) := by
  have hdisj : ∀ v ∈ depsMapOf nodes edges u, v ∉ nxt := by
    intro v hv hmem
    obtain ⟨h0, _⟩ := (hnxt v).mp hmem
    have hpos := inCount_pos hu husD hv
    rw [hind v] at h0
    have : inCount nodes edges seenD v = 0 := by exact_mod_cast h0
    omega
  obtain ⟨hf1, hf2, hf3⟩ := decFold_spec (depsMapOf nodes edges u) ind nxt
    (depsMapOf_nodup _ _ _) hnxt_nd hdisj
  rw [processNode_eq]
  refine ⟨?_, hf2, ?_⟩
  · intro v
    rw [hf1 v]
    by_cases hv : v ∈ depsMapOf nodes edges u
    · rw [if_pos hv, hind v, inCount_append_mem hnd hu husD hv]
      push_cast
      ring
    · rw [if_neg hv, hind v, inCount_append_not_mem hv]
  · intro v
    rw [hf3 v, hf1 v]
    constructor
    · rintro (hvn | ⟨hvdm, hv1⟩)
      · obtain ⟨h0, hS0⟩ := (hnxt v).mp hvn
        have hvndm : v ∉ depsMapOf nodes edges u := fun hdm => hdisj v hdm hvn
        rw [if_neg hvndm]
        exact ⟨h0, hS0⟩
      · rw [if_pos hvdm]
        refine ⟨by omega, ?_⟩
        have h1 : (inCount nodes edges seenD v : Int) = 1 := by rw [← hind v]; exact hv1
        have h2 : inCount nodes edges seenD v ≤ inCount nodes edges seen0 v :=
          inCount_le_of_subset hsub v
        omega
    · rintro ⟨h0, hS0⟩
      by_cases hvdm : v ∈ depsMapOf nodes edges u
      · rw [if_pos hvdm] at h0
        exact Or.inr ⟨hvdm, by omega⟩
      · rw [if_neg hvdm] at h0
        exact Or.inl ((hnxt v).mpr ⟨h0, hS0⟩)

theorem currentFold_spec (nodes : List String) (edges : List (String × String))
    (hnd : nodes.Nodup) (seen0 : List String) :
    ∀ (us done : List String) (ind : String → Int) (nxt : List String),
      us.Nodup → (∀ x ∈ us, x ∈ nodes ∧ x ∉ seen0 ∧ x ∉ done) →
      (∀ v, ind v = (inCount nodes edges (seen0 ++ done) v : Int)) →
      nxt.Nodup →
      (∀ v, v ∈ nxt ↔ ind v = 0 ∧ inCount nodes edges seen0 v ≠ 0) →
      (∀ v, (us.foldl (fun st u => processNode (depsMapOf nodes edges) u st) (ind, nxt)).1 v
        = (inCount nodes edges (seen0 ++ done ++ us) v : Int)) ∧
      (us.foldl (fun st u => processNode (depsMapOf nodes edges) u st) (ind, nxt)).2.Nodup ∧
      (∀ v, v ∈ (us.foldl (fun st u => processNode (depsMapOf nodes edges) u st)
          (ind, nxt)).2 ↔
        (us.foldl (fun st u => processNode (depsMapOf nodes edges) u st) (ind, nxt)).1 v = 0 ∧
          inCount nodes edges seen0 v ≠ 0) := by
  intro us
  induction us with
  | nil =>
    intro done ind nxt _ _ hind hnxt_nd hnxt
    refine ⟨?_, hnxt_nd, hnxt⟩
    intro v
    rw [List.foldl_nil]
    show ind v = (inCount nodes edges (seen0 ++ done ++ []) v : Int)
    rw [hind v]
    congr 1
    exact inCount_congr (by simp) v
  | cons u us ih =>
    intro done ind nxt hnd' hus hind hnxt_nd hnxt
    have hu := hus u (by simp)
    have husD : u ∉ seen0 ++ done := by
      simp only [List.mem_append]
      rintro (h | h)
      · exact hu.2.1 h
      · exact hu.2.2 h
    obtain ⟨p1, p2, p3⟩ := processNode_spec nodes edges hnd seen0
      (seen0 ++ done) ind nxt hu.1 husD (fun x hx => by simp [hx]) hind hnxt_nd hnxt
    rw [List.foldl_cons]
    have hind' : ∀ v, (processNode (depsMapOf nodes edges) u (ind, nxt)).1 v
        = (inCount nodes edges (seen0 ++ (done ++ [u])) v : Int) := by
      intro v
      rw [p1 v]
      congr 1
      exact inCount_congr (by simp) v
    have hus' : ∀ x ∈ us, x ∈ nodes ∧ x ∉ seen0 ∧ x ∉ done ++ [u] := by
      intro x hx
      have hxu : x ≠ u := fun h => (List.nodup_cons.mp hnd').1 (h ▸ hx)
      have := hus x (by simp [hx])
      refine ⟨this.1, this.2.1, ?_⟩
      simp only [List.mem_append, List.mem_singleton]
      rintro (h | h)
      · exact this.2.2 h
      · exact hxu h
    obtain ⟨q1, q2, q3⟩ := ih (done ++ [u]) (processNode (depsMapOf nodes edges) u (ind, nxt)).1
      (processNode (depsMapOf nodes edges) u (ind, nxt)).2
      (List.nodup_cons.mp hnd').2 hus' hind' p2 p3
    refine ⟨?_, q2, q3⟩
    intro v
    rw [q1 v]
    congr 1
    exact inCount_congr (by simp) v

/-- The loop invariant of `peel`, holding at entry of every iteration. -/
def PeelInv (nodes : List String) (edges : List (String × String))
    (current : List String) (indeg : String → Int) (seen : List String) : Prop :=
  current.Nodup ∧
  (∀ x ∈ current, x ∈ nodes ∧ x ∉ seen) ∧
  (∀ v, indeg v = (inCount nodes edges seen v : Int)) ∧
  (∀ v ∈ current, indeg v = 0) ∧
  (∀ v ∈ nodes, indeg v = 0 → v ∈ seen ∨ v ∈ current) ∧
  (∀ v ∈ seen, indeg v = 0)

/-- Each emitted layer's in-neighbours lie entirely in the already-seen
prefix, i.e. in strictly earlier layers. -/
def LayeredFrom (nodes : List String) (edges : List (String × String)) :
    List String → List (List String) → Prop
  | _, [] => True
  | seen, l :: ls =>
    (∀ v ∈ l, ∀ s ∈ nodes, v ∈ depsMapOf nodes edges s → s ∈ seen) ∧
    LayeredFrom nodes edges (seen ++ l) ls

theorem peel_zero (dm : String → List String) (current : List String)
    (indeg : String → Int) (seen : List String) :
    peel dm 0 current indeg seen = ([], seen) := rfl

theorem peel_succ_nil (dm : String → List String) (f : Nat)
    (indeg : String → Int) (seen : List String) :
    peel dm (f + 1) [] indeg seen = ([], seen) := by
  rw [peel]
  simp

theorem peel_succ_ne (dm : String → List String) (f : Nat) (current : List String)
    (indeg : String → Int) (seen : List String) (hc : current ≠ []) :
    peel dm (f + 1) current indeg seen =
      (current :: (peel dm f
          (current.foldl (fun st u => processNode dm u st) (indeg, [])).2
          (current.foldl (fun st u => processNode dm u st) (indeg, [])).1
          (seen ++ current)).1,
       (peel dm f
          (current.foldl (fun st u => processNode dm u st) (indeg, [])).2
          (current.foldl (fun st u => processNode dm u st) (indeg, [])).1
          (seen ++ current)).2) := by
  rw [peel]
  rw [if_neg hc]

theorem peel_seen_eq (dm : String → List String) :
    ∀ (fuel : Nat) (current : List String) (indeg : String → Int) (seen : List String),
      (peel dm fuel current indeg seen).2 =
        seen ++ (peel dm fuel current indeg seen).1.flatten := by
  intro fuel
  induction fuel with
  | zero => intro current indeg seen; simp [peel_zero]
  | succ f ih =>
    intro current indeg seen
    by_cases hc : current = []
    · subst hc; simp [peel_succ_nil]
    · rw [peel_succ_ne dm f current indeg seen hc]
      simp only [List.flatten_cons]
      rw [ih]
      rw [List.append_assoc]

theorem filter_not_mem_lt (ks s s' : List String) (c : String)
    (hsub : ∀ x ∈ s, x ∈ s') (hc : c ∈ ks) (hcs : c ∉ s) (hcs' : c ∈ s') :
    (ks.filter (fun x => decide (x ∉ s'))).length <
      (ks.filter (fun x => decide (x ∉ s))).length := by
  have hsl : (ks.filter (fun x => decide (x ∉ s'))).Sublist
      (ks.filter (fun x => decide (x ∉ s))) := by
    apply List.monotone_filter_right
    intro x hx
    simp only [decide_eq_true_eq] at hx ⊢
    exact fun hmem => hx (hsub x hmem)
  rcases Nat.lt_or_ge (ks.filter (fun x => decide (x ∉ s'))).length
      (ks.filter (fun x => decide (x ∉ s))).length with h | h
  · exact h
  · exfalso
    have heq := hsl.eq_of_length_le h
    have hc1 : c ∈ ks.filter (fun x => decide (x ∉ s)) := by
      simp [List.mem_filter, hc, hcs]
    rw [← heq] at hc1
    simp [List.mem_filter, hcs'] at hc1

theorem peel_spec (nodes : List String) (edges : List (String × String))
    (hnd : nodes.Nodup) (hE : ∀ e ∈ edges, e.1 ∈ nodes ∧ e.2 ∈ nodes) :
    ∀ (fuel : Nat) (current : List String) (indeg : String → Int) (seen : List String),
      (nodes.filter (fun x => decide (x ∉ seen))).length < fuel →
      PeelInv nodes edges current indeg seen →
      LayeredFrom nodes edges seen
        (peel (depsMapOf nodes edges) fuel current indeg seen).1 ∧
      (peel (depsMapOf nodes edges) fuel current indeg seen).1.flatten.Nodup ∧
      (∀ x ∈ (peel (depsMapOf nodes edges) fuel current indeg seen).1.flatten,
        x ∈ nodes ∧ x ∉ seen) ∧
      (∀ v ∈ nodes, v ∉ (peel (depsMapOf nodes edges) fuel current indeg seen).2 →
        ∃ s, s ∈ nodes ∧ s ∉ (peel (depsMapOf nodes edges) fuel current indeg seen).2 ∧
          v ∈ depsMapOf nodes edges s) ∧
      peel (depsMapOf nodes edges) (fuel + 1) current indeg seen =
        peel (depsMapOf nodes edges) fuel current indeg seen := by
  intro fuel
  induction fuel with
  | zero => intro current indeg seen h; exact absurd h (Nat.not_lt_zero _)
  | succ f ih =>
    intro current indeg seen hfu hinv
    obtain ⟨hcnd, hcur, hind, hcz, hzc, hsz⟩ := hinv
    by_cases hc : current = []
    · subst hc
      rw [peel_succ_nil]
      refine ⟨trivial, by simp, by simp, ?_, by rw [peel_succ_nil]⟩
      intro v hv hvseen
      simp only at hvseen
      have hvz : indeg v ≠ 0 := by
        intro h0
        rcases hzc v hv h0 with h' | h'
        · exact hvseen h'
        · simp at h'
      have hic : inCount nodes edges seen v ≠ 0 := by
        intro h0
        rw [hind v, h0] at hvz
        exact hvz rfl
      obtain ⟨s, hs1, hs2, hs3⟩ := inCount_ne_zero_exists hic
      exact ⟨s, hs1, hs2, hs3⟩
    · have hnxt0 : ∀ v, v ∈ ([] : List String) ↔
          indeg v = 0 ∧ inCount nodes edges seen v ≠ 0 := by
        intro v
        simp only [List.not_mem_nil, false_iff]
        rintro ⟨h0, hne⟩
        rw [hind v] at h0
        exact hne (by exact_mod_cast h0)
      have hind0 : ∀ v, indeg v = (inCount nodes edges (seen ++ []) v : Int) := by
        intro v
        rw [hind v]
        congr 1
        exact inCount_congr (by simp) v
      obtain ⟨f1, f2, f3⟩ := currentFold_spec nodes edges hnd seen current [] indeg []
        hcnd (fun x hx => ⟨(hcur x hx).1, (hcur x hx).2, by simp⟩)
        hind0 List.nodup_nil hnxt0
      set stepr := current.foldl (fun st u => processNode (depsMapOf nodes edges) u st)
        (indeg, ([] : List String)) with hstepr
      have hind' : ∀ v, stepr.1 v = (inCount nodes edges (seen ++ current) v : Int) := by
        intro v
        rw [f1 v]
        congr 1
        exact inCount_congr (by simp) v
      have hseen_cur_zero : ∀ v, v ∈ seen ∨ v ∈ current →
          inCount nodes edges seen v = 0 := by
        rintro v (hv | hv)
        · have := hsz v hv
          rw [hind v] at this
          exact_mod_cast this
        · have := hcz v hv
          rw [hind v] at this
          exact_mod_cast this
      have hinv' : PeelInv nodes edges stepr.2 stepr.1 (seen ++ current) := by
        refine ⟨f2, ?_, hind', ?_, ?_, ?_⟩
        · intro x hx
          obtain ⟨h0, hne⟩ := (f3 x).mp hx
          obtain ⟨s, hs1, _, hs3⟩ := inCount_ne_zero_exists hne
          refine ⟨mem_nodes_of_mem_depsMapOf hE hs3, ?_⟩
          intro hxmem
          exact hne (hseen_cur_zero x (by simpa using hxmem))
        · intro v hv
          exact ((f3 v).mp hv).1
        · intro v hv h0
          by_cases hic : inCount nodes edges seen v = 0
          · left
            have : indeg v = 0 := by rw [hind v, hic]; rfl
            rcases hzc v hv this with h' | h' <;> simp [h']
          · right
            exact (f3 v).mpr ⟨h0, hic⟩
        · intro v hv
          have h0 : inCount nodes edges seen v = 0 := hseen_cur_zero v (by simpa using hv)
          have hle : inCount nodes edges (seen ++ current) v ≤
              inCount nodes edges seen v :=
            inCount_le_of_subset (fun x hx => List.mem_append.mpr (Or.inl hx)) v
          rw [hind' v]
          omega
      have hfu' : (nodes.filter (fun x => decide (x ∉ seen ++ current))).length < f := by
        obtain ⟨c, hcmem⟩ := List.exists_mem_of_ne_nil current hc
        have hdec := filter_not_mem_lt nodes seen (seen ++ current) c
          (fun x hx => by simp [hx]) (hcur c hcmem).1 (hcur c hcmem).2
          (by simp [hcmem])
        omega
      obtain ⟨q1, q2, q3, q4, q5⟩ := ih stepr.2 stepr.1 (seen ++ current) hfu' hinv'
      rw [peel_succ_ne _ f current indeg seen hc]
      rw [← hstepr]
      refine ⟨?_, ?_, ?_, ?_, ?_⟩
      · refine ⟨?_, q1⟩
        intro v hv s hs hdm
        apply inCount_zero_mem (hseen_cur_zero v (Or.inr hv)) s hs hdm
      · simp only [List.flatten_cons]
        rw [List.nodup_append]
        refine ⟨hcnd, q2, ?_⟩
        intro a ha hafl
        exact (q3 a hafl).2 (by simp [ha])
      · simp only [List.flatten_cons]
        intro x hx
        rcases List.mem_append.mp hx with h' | h'
        · exact hcur x h'
        · obtain ⟨h1, h2⟩ := q3 x h'
          refine ⟨h1, fun hmem => h2 (by simp [hmem])⟩
      · intro v hv hvn
        exact q4 v hv hvn
      · rw [peel_succ_ne _ (f + 1) current indeg seen hc, ← hstepr, q5]

theorem layerIdx_cons (l : List String) (ls : List (List String)) (x : String) :
    layerIdx (l :: ls) x = if x ∈ l then 0 else layerIdx ls x + 1 := by
  unfold layerIdx
  rw [List.findIdx_cons]
  by_cases h : x ∈ l
  · simp [h]
  · simp [h]

theorem layered_strict (nodes : List String) (edges : List (String × String)) :
    ∀ (levels : List (List String)) (seen : List String),
      LayeredFrom nodes edges seen levels → (seen ++ levels.flatten).Nodup →
      ∀ s d, s ∈ nodes → d ∈ depsMapOf nodes edges s → d ∈ levels.flatten → s ∉ seen →
        s ∈ levels.flatten ∧ layerIdx levels s < layerIdx levels d := by
  intro levels
  induction levels with
  | nil => intro seen _ _ s d _ _ hd _; simp at hd
  | cons l ls ih =>
    intro seen hlf hnd s d hs hdm hd hsseen
    obtain ⟨hhead, htail⟩ := hlf
    by_cases hdl : d ∈ l
    · exact absurd (hhead d hdl s hs hdm) hsseen
    · have hdls : d ∈ ls.flatten := by
        rw [List.flatten_cons] at hd
        rcases List.mem_append.mp hd with h' | h'
        · exact absurd h' hdl
        · exact h'
      by_cases hsl : s ∈ l
      · refine ⟨by simp [hsl], ?_⟩
        rw [layerIdx_cons, layerIdx_cons, if_pos hsl, if_neg hdl]
        omega
      · have hnd' : ((seen ++ l) ++ ls.flatten).Nodup := by
          rw [List.append_assoc]
          simpa using hnd
        have hsseen' : s ∉ seen ++ l := by
          simp only [List.mem_append]
          rintro (h | h)
          · exact hsseen h
          · exact hsl h
        obtain ⟨hsfl, hlt⟩ := ih (seen ++ l) htail hnd' s d hs hdm hdls hsseen'
        refine ⟨by simp [hsfl], ?_⟩
        rw [layerIdx_cons, layerIdx_cons, if_neg hsl, if_neg hdl]
        omega

theorem chain_into_flatten (nodes : List String) (edges : List (String × String))
    (hE : ∀ e ∈ edges, e.1 ∈ nodes ∧ e.2 ∈ nodes) (levels : List (List String))
    (hlf : LayeredFrom nodes edges [] levels) (hnd : levels.flatten.Nodup) :
    ∀ (zs : List String) (a b : String), List.Chain (EdgeStep edges) a (zs ++ [b]) →
      b ∈ levels.flatten →
      a ∈ levels.flatten ∧ layerIdx levels a < layerIdx levels b := by
  intro zs
  induction zs with
  | nil =>
    intro a b hch hb
    cases hch with
    | cons hab _ =>
      have ha : a ∈ nodes := (hE _ hab).1
      have hdm : b ∈ depsMapOf nodes edges a := mem_depsMapOf.mpr ⟨ha, hab⟩
      exact layered_strict nodes edges levels [] hlf (by simpa using hnd) a b ha hdm hb
        (by simp)
  | cons z zs ih =>
    intro a b hch hb
    rw [List.cons_append] at hch
    cases hch with
    | cons haz htail =>
      obtain ⟨hzfl, hzlt⟩ := ih z b htail hb
      have ha : a ∈ nodes := (hE _ haz).1
      have hdm : z ∈ depsMapOf nodes edges a := mem_depsMapOf.mpr ⟨ha, haz⟩
      obtain ⟨hafl, halt⟩ := layered_strict nodes edges levels [] hlf (by simpa using hnd)
        a z ha hdm hzfl (by simp)
      exact ⟨hafl, lt_trans halt hzlt⟩

theorem cycleAt_rotate {edges : List (String × String)} {v : String} {l : List String}
    (hcy : CycleAt edges v l) :
    ∀ x ∈ v :: l, ∃ xs, List.Chain (EdgeStep edges) x (xs ++ [x]) := by
  intro x hx
  rcases List.mem_cons.mp hx with rfl | hxl
  · exact ⟨l, hcy⟩
  · obtain ⟨l₁, l₂, rfl⟩ := List.append_of_mem hxl
    rw [CycleAt, List.append_assoc, List.cons_append, List.chain_split] at hcy
    refine ⟨l₂ ++ v :: l₁, ?_⟩
    have hres : List.Chain (EdgeStep edges) x (l₂ ++ v :: (l₁ ++ [x])) :=
      List.chain_split.mpr ⟨hcy.2, hcy.1⟩
    simpa [List.append_assoc] using hres

theorem chain_head_mem_nodes {nodes : List String} {edges : List (String × String)}
    (hE : ∀ e ∈ edges, e.1 ∈ nodes ∧ e.2 ∈ nodes) {x : String} {xs : List String}
    (h : List.Chain (EdgeStep edges) x (xs ++ [x])) : x ∈ nodes := by
  cases xs with
  | nil =>
    cases h with
    | cons hab _ => exact (hE _ hab).1
  | cons y ys =>
    rw [List.cons_append] at h
    cases h with
    | cons hab _ => exact (hE _ hab).1

theorem no_unpeeled_of_acyclic (nodes : List String) (edges : List (String × String))
    (hE : ∀ e ∈ edges, e.1 ∈ nodes ∧ e.2 ∈ nodes) (hacy : Acyclic edges)
    (seenF : List String)
    (hP4 : ∀ v ∈ nodes, v ∉ seenF → ∃ s, s ∈ nodes ∧ s ∉ seenF ∧
      v ∈ depsMapOf nodes edges s) :
    ∀ v ∈ nodes, v ∈ seenF := by
  by_contra hcon
  push_neg at hcon
  obtain ⟨v0, hv0n, hv0s⟩ := hcon
  have hv0R : v0 ∈ nodes.filter (fun x => decide (x ∉ seenF)) := by
    simp [List.mem_filter, hv0n, hv0s]
  have hstep : ∀ x ∈ nodes.filter (fun x => decide (x ∉ seenF)),
      ∃ s ∈ nodes.filter (fun x => decide (x ∉ seenF)), (s, x) ∈ edges := by
    intro x hx
    have hx' := List.mem_filter.mp hx
    simp only [decide_eq_true_eq] at hx'
    obtain ⟨s, hs1, hs2, hs3⟩ := hP4 x hx'.1 hx'.2
    exact ⟨s, by simp [List.mem_filter, hs1, hs2], (mem_depsMapOf.mp hs3).2⟩
  let F : {x // x ∈ nodes.filter (fun x => decide (x ∉ seenF))} →
      {x // x ∈ nodes.filter (fun x => decide (x ∉ seenF))} :=
    fun x => ⟨(hstep x.1 x.2).choose, (hstep x.1 x.2).choose_spec.1⟩
  have hFedge : ∀ x, ((F x).1, x.1) ∈ edges := fun x => (hstep x.1 x.2).choose_spec.2
  let w : Nat → {x // x ∈ nodes.filter (fun x => decide (x ∉ seenF))} :=
    fun n => F^[n] ⟨v0, hv0R⟩
  have hwsucc : ∀ n, w (n + 1) = F (w n) := fun n => Function.iterate_succ_apply' F n _
  have hchain : ∀ d : Nat, 1 ≤ d → ∀ i : Nat, ∃ xs,
      List.Chain (EdgeStep edges) (w (i + d)).1 (xs ++ [(w i).1]) := by
    intro d
    induction d with
    | zero => intro h; exact absurd h (by omega)
    | succ d ihd =>
      intro _ i
      by_cases hd : d = 0
      · subst hd
        refine ⟨[], List.Chain.cons ?_ List.Chain.nil⟩
        show EdgeStep edges (w (i + 1)).1 (w i).1
        rw [hwsucc i]
        exact hFedge (w i)
      · obtain ⟨xs, hxs⟩ := ihd (by omega) (i + 1)
        refine ⟨xs ++ [(w (i + 1)).1], ?_⟩
        have h1 : i + (d + 1) = (i + 1) + d := by omega
        rw [h1]
        rw [show (xs ++ [(w (i + 1)).1]) ++ [(w i).1]
            = xs ++ (w (i + 1)).1 :: [(w i).1] from by simp]
        rw [List.chain_split]
        refine ⟨hxs, List.Chain.cons ?_ List.Chain.nil⟩
        show EdgeStep edges (w (i + 1)).1 (w i).1
        rw [hwsucc i]
        exact hFedge (w i)
  have hmapsto : ∀ n ∈ Finset.range
      ((nodes.filter (fun x => decide (x ∉ seenF))).toFinset.card + 1),
      (w n).1 ∈ (nodes.filter (fun x => decide (x ∉ seenF))).toFinset := by
    intro n _
    exact List.mem_toFinset.mpr (w n).2
  obtain ⟨i, _, j, _, hij, hweq⟩ := Finset.exists_ne_map_eq_of_card_lt_of_maps_to
    (by simp) hmapsto
  have hcycle : ∀ i j : Nat, i < j → (w i).1 = (w j).1 → False := by
    intro i j hlt heq
    obtain ⟨xs, hxs⟩ := hchain (j - i) (by omega) i
    rw [show i + (j - i) = j from by omega] at hxs
    rw [← heq] at hxs
    exact hacy (w i).1 xs hxs
  rcases Nat.lt_or_ge i j with hlt | hge
  · exact hcycle i j hlt hweq
  · have hlt : j < i := by omega
    exact hcycle j i hlt hweq.symm

theorem topologicalLayersFuel_eq (nodes : List String) (edges : List (String × String))
    (fuel : Nat) :
    topologicalLayersFuel nodes edges fuel =
      if nodes.filter (fun n => decide (n ∉ (peel (depsMapOf nodes edges) fuel
            (nodes.filter (fun n => decide (indeg0 nodes edges n = 0)))
            (indeg0 nodes edges) []).2)) = []
      then (peel (depsMapOf nodes edges) fuel
            (nodes.filter (fun n => decide (indeg0 nodes edges n = 0)))
            (indeg0 nodes edges) []).1
      else (peel (depsMapOf nodes edges) fuel
            (nodes.filter (fun n => decide (indeg0 nodes edges n = 0)))
            (indeg0 nodes edges) []).1 ++
        [nodes.filter (fun n => decide (n ∉ (peel (depsMapOf nodes edges) fuel
            (nodes.filter (fun n => decide (indeg0 nodes edges n = 0)))
            (indeg0 nodes edges) []).2))] := rfl

theorem peelInit_inv (nodes : List String) (edges : List (String × String))
    (hnd : nodes.Nodup) :
    PeelInv nodes edges (nodes.filter (fun n => decide (indeg0 nodes edges n = 0)))
      (indeg0 nodes edges) [] := by
  refine ⟨hnd.filter _, ?_, ?_, ?_, ?_, ?_⟩
  · intro x hx
    exact ⟨(List.mem_filter.mp hx).1, by simp⟩
  · intro v
    exact indeg0_eq_inCount nodes edges v
  · intro v hv
    have := (List.mem_filter.mp hv).2
    simpa using this
  · intro v hv h0
    right
    simp [List.mem_filter, hv, h0]
  · intro v hv
    simp at hv

/-- Claim C3: `topologicalLayers` on an acyclic graph assigns every edge's
source a strictly earlier (smaller-index) layer than its destination; on a
graph containing a cycle, every member of that cycle is placed in the
single final layer; and the computation terminates — `nodes.length + 1`
loop iterations always reach the empty frontier, so any extra fuel leaves
the result unchanged. -/
theorem topologicalLayers_correct (nodes : List String) (edges : List (String × String))
    (hnd : nodes.Nodup) (hE : ∀ e ∈ edges, e.1 ∈ nodes ∧ e.2 ∈ nodes) :
    (Acyclic edges → ∀ e ∈ edges,
      layerIdx (topologicalLayers nodes edges) e.1 <
        layerIdx (topologicalLayers nodes edges) e.2) ∧
    (∀ v l, CycleAt edges v l → ∀ x ∈ v :: l,
      x ∈ lastLayer (topologicalLayers nodes edges)) ∧
    (∀ k : Nat, topologicalLayersFuel nodes edges (nodes.length + 1 + k) =
      topologicalLayers nodes edges) := by
  have hfuel0 : ∀ fuel, nodes.length < fuel →
      (nodes.filter (fun x => decide (x ∉ ([] : List String)))).length < fuel := by
    intro fuel h
    have heq : nodes.filter (fun x => decide (x ∉ ([] : List String))) = nodes :=
      List.filter_eq_self.mpr (by intro a _; simp)
    rw [heq]
    exact h
  obtain ⟨L, NDfl, MEMfl, P4, _⟩ := peel_spec nodes edges hnd hE (nodes.length + 1)
    (nodes.filter (fun n => decide (indeg0 nodes edges n = 0))) (indeg0 nodes edges) []
    (hfuel0 _ (by omega)) (peelInit_inv nodes edges hnd)
  set r := peel (depsMapOf nodes edges) (nodes.length + 1)
    (nodes.filter (fun n => decide (indeg0 nodes edges n = 0))) (indeg0 nodes edges) []
    with hr
  have hseenF : r.2 = r.1.flatten := by
    have h := peel_seen_eq (depsMapOf nodes edges) (nodes.length + 1)
      (nodes.filter (fun n => decide (indeg0 nodes edges n = 0))) (indeg0 nodes edges) []
    rw [← hr] at h
    simpa using h
  refine ⟨?_, ?_, ?_⟩
  · intro hacy e he
    have hall : ∀ v ∈ nodes, v ∈ r.2 := no_unpeeled_of_acyclic nodes edges hE hacy r.2 P4
    have hremain : nodes.filter (fun n => decide (n ∉ r.2)) = [] := by
      apply List.filter_eq_nil.mpr
      intro a ha
      simpa using hall a ha
    have htopo : topologicalLayers nodes edges = r.1 := by
      rw [topologicalLayers, topologicalLayersFuel_eq, ← hr, if_pos hremain]
    rw [htopo]
    have hs := hE e he
    have hdm : e.2 ∈ depsMapOf nodes edges e.1 :=
      mem_depsMapOf.mpr ⟨hs.1, by rw [Prod.mk.eta]; exact he⟩
    have hd2fl : e.2 ∈ r.1.flatten := by
      rw [← hseenF]
      exact hall e.2 hs.2
    exact (layered_strict nodes edges r.1 [] L (by simpa using NDfl) e.1 e.2 hs.1 hdm
      hd2fl (by simp)).2
  · intro v l hcy x hx
    obtain ⟨xs, hxchain⟩ := cycleAt_rotate hcy x hx
    have hxn : x ∈ nodes := chain_head_mem_nodes hE hxchain
    have hxnot : x ∉ r.2 := by
      intro hxr
      have hxfl : x ∈ r.1.flatten := by rw [← hseenF]; exact hxr
      exact absurd (chain_into_flatten nodes edges hE r.1 L NDfl xs x x hxchain hxfl).2
        (lt_irrefl _)
    obtain ⟨vs, hvchain⟩ := cycleAt_rotate hcy v (by simp)
    have hvn : v ∈ nodes := chain_head_mem_nodes hE hvchain
    have hvnot : v ∉ r.2 := by
      intro hvr
      have hvfl : v ∈ r.1.flatten := by rw [← hseenF]; exact hvr
      exact absurd (chain_into_flatten nodes edges hE r.1 L NDfl vs v v hvchain hvfl).2
        (lt_irrefl _)
    have hremne : nodes.filter (fun n => decide (n ∉ r.2)) ≠ [] := by
      intro h0
      have hvmem : v ∈ nodes.filter (fun n => decide (n ∉ r.2)) := by
        simp [List.mem_filter, hvn, hvnot]
      rw [h0] at hvmem
      simp at hvmem
    have htopo : topologicalLayers nodes edges
        = r.1 ++ [nodes.filter (fun n => decide (n ∉ r.2))] := by
      rw [topologicalLayers, topologicalLayersFuel_eq, ← hr, if_neg hremne]
    rw [htopo]
    simp only [lastLayer]
    rw [List.getLastD_concat]
    simp [List.mem_filter, hxn, hxnot]
  · intro k
    induction k with
    | zero => rfl
    | succ k ihk =>
      obtain ⟨_, _, _, _, ST⟩ := peel_spec nodes edges hnd hE (nodes.length + 1 + k)
        (nodes.filter (fun n => decide (indeg0 nodes edges n = 0))) (indeg0 nodes edges) []
        (hfuel0 _ (by omega)) (peelInit_inv nodes edges hnd)
      rw [show nodes.length + 1 + (k + 1) = (nodes.length + 1 + k) + 1 from by omega]
      rw [topologicalLayersFuel_eq nodes edges ((nodes.length + 1 + k) + 1)]
      rw [ST]
      rw [← topologicalLayersFuel_eq nodes edges (nodes.length + 1 + k)]
      exact ihk

theorem topologicalLayers_correct_witness :
    (["A", "B"] : List String).Nodup ∧
    (∀ e ∈ [(("A" : String), ("B" : String))], e.1 ∈ ["A", "B"] ∧ e.2 ∈ ["A", "B"]) ∧
    ((Acyclic [("A", "B")] → ∀ e ∈ [(("A" : String), ("B" : String))],
        layerIdx (topologicalLayers ["A", "B"] [("A", "B")]) e.1 <
          layerIdx (topologicalLayers ["A", "B"] [("A", "B")]) e.2) ∧
      (∀ v l, CycleAt [("A", "B")] v l → ∀ x ∈ v :: l,
        x ∈ lastLayer (topologicalLayers ["A", "B"] [("A", "B")])) ∧
      (∀ k : Nat, topologicalLayersFuel ["A", "B"] [("A", "B")]
          ((["A", "B"] : List String).length + 1 + k) =
        topologicalLayers ["A", "B"] [("A", "B")])) :=
  ⟨by decide, by decide,
    topologicalLayers_correct ["A", "B"] [("A", "B")] (by decide) (by decide)⟩

end WorkspaceManager
